import Mathlib

/-!
Shallow embedding of the retrieval / quote-extraction core of the
ANALYTICPHILOSOPHY.NET repository, and proofs about it.

Strings are modelled as `List Char`.  JavaScript regular-expression
operations are embedded as explicit character scanners that reproduce the
semantics of the concrete patterns appearing in the source
(`src/server/generate-poincare-complete.ts`, `src/server/vector-search.ts`):

* `\s` is modelled by `isWS` (ASCII whitespace plus NBSP);
* `\w` (the `\b` word/non-word distinction) by `isWordChar`
  (`[A-Za-z0-9_]`);
* `toLowerCase`/`toUpperCase` by the ASCII case maps `jsToLower`/`jsToUpper`
  applied characterwise;
* Postgres `ILIKE '%f%'` by case-insensitive substring containment;
* the pgvector cosine distance of a row to the query embedding is an
  explicit parameter (`dist`) of the corpus-store model; SQL float
  distances are modelled in `ℤ` at a fixed-point scale of thousandths
  (only their ordering is ever consumed, by `ORDER BY distance`).
-/

/-- Length bound for `dropWhile`, used by the termination arguments of the
character scanners below. -/
theorem lengthDropWhileLe (p : Char → Bool) (l : List Char) :
    (l.dropWhile p).length ≤ l.length :=
  (List.dropWhile_sublist _).length_le

/-- Unpacking `Char.ofNat` below the surrogate range. -/
theorem toNatOfNatSmall (n : Nat) (h : n < 55296) : (Char.ofNat n).toNat = n := by
  have hv : n.isValidChar := Or.inl h
  rw [Char.ofNat, dif_pos hv]
  rfl

/-- JS `\s` test (ASCII whitespace plus the no-break space). -/
def isWS (c : Char) : Bool :=
  c.toNat = 32 || c.toNat = 9 || c.toNat = 10 || c.toNat = 13 ||
  c.toNat = 11 || c.toNat = 12 || c.toNat = 160

/-- JS `\w` (word character) test: `[A-Za-z0-9_]`. -/
def isWordChar (c : Char) : Bool :=
  (97 ≤ c.toNat && c.toNat ≤ 122) || (65 ≤ c.toNat && c.toNat ≤ 90) ||
  (48 ≤ c.toNat && c.toNat ≤ 57) || c.toNat = 95

/-- The punctuation class `[,.!?;:]` used by the spacing fix-ups in
`applySpellCorrection`. -/
def isPunctCh (c : Char) : Bool :=
  c.toNat = 44 || c.toNat = 46 || c.toNat = 33 || c.toNat = 63 ||
  c.toNat = 59 || c.toNat = 58

/-- Sentence-terminal characters (`.`, `!`, `?`). -/
def isTerminal (c : Char) : Bool :=
  c.toNat = 46 || c.toNat = 33 || c.toNat = 63

/-- ASCII lowercase-letter test (`/[a-z]/`). -/
def isLowerAZ (c : Char) : Bool := 97 ≤ c.toNat && c.toNat ≤ 122

/-- ASCII uppercase-letter test (`/[A-Z]/`). -/
def isUpperAZ (c : Char) : Bool := 65 ≤ c.toNat && c.toNat ≤ 90

/-- ASCII digit test (`/\d/`). -/
def isDigitCh (c : Char) : Bool := 48 ≤ c.toNat && c.toNat ≤ 57

/-- `String.prototype.toLowerCase`, modelled on the ASCII range. -/
def jsToLower (c : Char) : Char :=
  if 65 ≤ c.toNat ∧ c.toNat ≤ 90 then Char.ofNat (c.toNat + 32) else c

/-- `String.prototype.toUpperCase`, modelled on the ASCII range. -/
def jsToUpper (c : Char) : Char :=
  if 97 ≤ c.toNat ∧ c.toNat ≤ 122 then Char.ofNat (c.toNat - 32) else c

/-- Characterwise lowercasing of a string. -/
def toLowerL (l : List Char) : List Char := l.map jsToLower

/-- Characterwise uppercasing of a string. -/
def toUpperL (l : List Char) : List Char := l.map jsToUpper

/-- `String.prototype.trim`: drop whitespace from both ends. -/
def trimL (l : List Char) : List Char :=
  (l.dropWhile isWS).rdropWhile isWS

/-- `s` occurs as a contiguous segment of `t`. -/
def SubSeg (s t : List Char) : Prop := ∃ p q, t = p ++ s ++ q

/-- Bool test for `leadsWith n h`: `n` is an initial segment of `h`. -/
def leadsWith : List Char → List Char → Bool
  | [], _ => true
  | _ :: _, [] => false
  | a :: n, b :: h => a = b && leadsWith n h

/-- Bool test: `n` occurs as a contiguous segment of `h`
(JS `String.prototype.includes`). -/
def containsSeg (h n : List Char) : Bool :=
  h.tails.any (fun t => leadsWith n t)

/-- JS `str.split(/\s+/)`: fields between maximal whitespace runs; a
leading (resp. trailing) run contributes a leading (resp. trailing) empty
field. -/
def jsSplitWs : List Char → List (List Char)
  | [] => [[]]
  | c :: cs =>
    if isWS c then
      match cs with
      | [] => [[], []]
      | d :: _ => if isWS d then jsSplitWs cs else [] :: jsSplitWs cs
    else
      match jsSplitWs cs with
      | [] => [[c]]
      | f :: fs => (c :: f) :: fs

/-- Number of maximal digit runs in the string
(JS `(s.match(/\d+/g) || []).length`). -/
def digitRunCount : List Char → Nat
  | [] => 0
  | c :: cs =>
    if isDigitCh c then
      match cs with
      | [] => 1
      | d :: _ => if isDigitCh d then digitRunCount cs else digitRunCount cs + 1
    else digitRunCount cs

/-- Insert `a` after every element `b` of `l` with `le b a`: the
insertion step of a stable sort. -/
def insertStable (le : α → α → Bool) (a : α) : List α → List α
  | [] => [a]
  | b :: bs => if le b a then b :: insertStable le a bs else a :: b :: bs

/-- Left fold of `insertStable` over the input. -/
def sortAux (le : α → α → Bool) : List α → List α → List α
  | acc, [] => acc
  | acc, x :: xs => sortAux le (insertStable le x acc) xs

/-- Stable sort by a Boolean comparator (insertion sort): the model of
both the JS stable `Array.prototype.sort` and SQL `ORDER BY`.  Equal
elements keep their input order. -/
def stableSortBy (le : α → α → Bool) (l : List α) : List α :=
  sortAux le [] l

theorem insertStable_perm (le : α → α → Bool) (a : α) (l : List α) :
    List.Perm (insertStable le a l) (a :: l) := by
  induction l with
  | nil => rfl
  | cons b bs ih =>
    by_cases h : le b a = true
    · simpa [insertStable, h] using ((ih.cons b).trans (List.Perm.swap a b bs))
    · simp [insertStable, h]

theorem sortAux_perm (le : α → α → Bool) (l acc : List α) :
    List.Perm (sortAux le acc l) (acc ++ l) := by
  induction l generalizing acc with
  | nil => simp [sortAux]
  | cons x xs ih =>
    refine ((ih _).trans ((insertStable_perm le x acc).append_right xs)).trans ?_
    exact List.perm_middle.symm.trans (by simp)

theorem stableSortBy_perm (le : α → α → Bool) (l : List α) :
    List.Perm (stableSortBy le l) l :=
  sortAux_perm le l []

theorem stableSortBy_length (le : α → α → Bool) (l : List α) :
    (stableSortBy le l).length = l.length :=
  (stableSortBy_perm le l).length_eq

theorem stableSortBy_mem (le : α → α → Bool) (a : α) (l : List α) :
    a ∈ stableSortBy le l ↔ a ∈ l :=
  (stableSortBy_perm le l).mem_iff

theorem insertStable_pairwise (le : α → α → Bool)
    (htot : ∀ a b, le a b = true ∨ le b a = true)
    (htrans : ∀ a b c, le a b = true → le b c = true → le a c = true)
    (a : α) (l : List α) (hl : List.Pairwise (fun x y => le x y = true) l) :
    List.Pairwise (fun x y => le x y = true) (insertStable le a l) := by
  induction l with
  | nil => simp [insertStable]
  | cons b bs ih =>
    rcases hl with _ | ⟨hb, hbs⟩
    by_cases h : le b a = true
    · rw [insertStable, if_pos h]
      refine List.Pairwise.cons ?_ (ih hbs)
      intro x hx
      rcases List.mem_cons.mp (((insertStable_perm le a bs).mem_iff).mp hx) with rfl | hxb
      · exact h
      · exact hb x hxb
    · rw [insertStable, if_neg h]
      have hab : le a b = true := (htot a b).resolve_right (by simpa using h)
      refine List.Pairwise.cons ?_ (List.Pairwise.cons hb hbs)
      intro x hx
      cases hx with
      | head => exact hab
      | tail _ hxb => exact htrans a b x hab (hb x hxb)

theorem sortAux_pairwise (le : α → α → Bool)
    (htot : ∀ a b, le a b = true ∨ le b a = true)
    (htrans : ∀ a b c, le a b = true → le b c = true → le a c = true)
    (l acc : List α) (hacc : List.Pairwise (fun x y => le x y = true) acc) :
    List.Pairwise (fun x y => le x y = true) (sortAux le acc l) := by
  induction l generalizing acc with
  | nil => exact hacc
  | cons x xs ih =>
    exact ih _ (insertStable_pairwise le htot htrans x acc hacc)

theorem stableSortBy_pairwise (le : α → α → Bool)
    (htot : ∀ a b, le a b = true ∨ le b a = true)
    (htrans : ∀ a b c, le a b = true → le b c = true → le a c = true)
    (l : List α) :
    List.Pairwise (fun x y => le x y = true) (stableSortBy le l) :=
  sortAux_pairwise le htot htrans l [] (by simp)

/-- The apostrophe character, `'`. -/
def apos : Char := Char.ofNat 39

/-- The word-for-word substitution table of `applySpellCorrection`
(`generate-poincare-complete.ts` lines 1470-1498): each `\bxxx\b/gi ->
yyy` replacement, keyed by the lowercased matched word. -/
def wordTable : List (List Char × List Char) :=
  [ ("vvith".data, "with".data)
  , ("vvhich".data, "which".data)
  , ("vvhat".data, "what".data)
  , ("vvhen".data, "when".data)
  , ("vvhere".data, "where".data)
  , ("vvhile".data, "while".data)
  , ("vvho".data, "who".data)
  , ("vve".data, "we".data)
  , ("tbe".data, "the".data)
  , ("tlie".data, "the".data)
  , ("witli".data, "with".data)
  , ("tbat".data, "that".data)
  , ("tliis".data, "this".data)
  , ("dont".data, "don".data ++ apos :: "t".data)
  , ("cant".data, "can".data ++ apos :: "t".data)
  , ("wont".data, "won".data ++ apos :: "t".data)
  , ("doesnt".data, "doesn".data ++ apos :: "t".data)
  , ("isnt".data, "isn".data ++ apos :: "t".data)
  , ("arent".data, "aren".data ++ apos :: "t".data)
  , ("werent".data, "weren".data ++ apos :: "t".data)
  , ("wasnt".data, "wasn".data ++ apos :: "t".data)
  , ("hasnt".data, "hasn".data ++ apos :: "t".data)
  , ("havent".data, "haven".data ++ apos :: "t".data)
  , ("shouldnt".data, "shouldn".data ++ apos :: "t".data)
  , ("wouldnt".data, "wouldn".data ++ apos :: "t".data)
  , ("couldnt".data, "couldn".data ++ apos :: "t".data) ]

/-- Ordered lookup in `wordTable`. -/
def tableFind : List (List Char × List Char) → List Char → Option (List Char)
  | [], _ => none
  | p :: ps, k => if p.1 = k then some p.2 else tableFind ps k

/-- Apply the word substitutions of `applySpellCorrection` to one maximal
word-character run: the chained case-insensitive whole-word replacements
act exactly as a lookup of the lowercased token (the pattern words are
pairwise distinct and no replacement output matches a later pattern). -/
def fixTok (w : List Char) : List Char :=
  match tableFind wordTable (toLowerL w) with
  | some r => r
  | none => w

/-- Accumulator pass of `fixWords`: `acc` holds the reversed prefix of
the current maximal word-character run. -/
def fixWordsAux : List Char → List Char → List Char
  | acc, [] => fixTok acc.reverse
  | acc, c :: cs =>
    if isWordChar c then fixWordsAux (c :: acc) cs
    else fixTok acc.reverse ++ c :: fixWordsAux [] cs

/-- The word-replacement passes of `applySpellCorrection`: every maximal
run of word characters is rewritten by `fixTok`; all other characters are
copied. -/
def fixWords (l : List Char) : List Char := fixWordsAux [] l

/-- The `replace(/\s+([,.!?;:])/g, '$1')` pass: delete every maximal
whitespace run that immediately precedes a punctuation character.  The
accumulator holds the (reversed) pending whitespace run: it is discarded
when a punctuation character follows and flushed otherwise. -/
def sspAux : List Char → List Char → List Char
  | acc, [] => acc.reverse
  | acc, c :: cs =>
    if isWS c then sspAux (c :: acc) cs
    else if isPunctCh c then c :: sspAux [] cs
    else acc.reverse ++ c :: sspAux [] cs

/-- The full pass, with an empty pending run. -/
def stripWsPunct (l : List Char) : List Char := sspAux [] l

/-- The `replace(/([,.!?;:])\s+/g, '$1 ')` pass: after a punctuation
character, collapse a following whitespace run to a single space.  The
flag records being inside a punctuation-led whitespace run whose single
space has already been emitted. -/
def sapAux : Bool → List Char → List Char
  | _, [] => []
  | inRun, c :: cs =>
    if inRun && isWS c then sapAux true cs
    else if isPunctCh c && (match cs with | d :: _ => isWS d | [] => false) then
      c :: ' ' :: sapAux true cs
    else c :: sapAux false cs

/-- The full pass, starting outside any run. -/
def spaceAfterPunct (l : List Char) : List Char := sapAux false l

/-- The `replace(/\s+/g, ' ')` pass: collapse every maximal whitespace run
to a single space. -/
def collapseWs : List Char → List Char
  | [] => []
  | [c] => if isWS c then [' '] else [c]
  | c :: d :: rest =>
    if isWS c then
      if isWS d then collapseWs (d :: rest) else ' ' :: collapseWs (d :: rest)
    else c :: collapseWs (d :: rest)

/-- `applySpellCorrection` (`generate-poincare-complete.ts` 1468-1505) on
`List Char`: the chained word replacements, then the punctuation-spacing
fixes, whitespace collapsing and trimming, in source order. -/
def ascL (l : List Char) : List Char :=
  trimL (collapseWs (spaceAfterPunct (stripWsPunct (fixWords l))))

/-- `applySpellCorrection` on `String`. -/
def applySpellCorrection (text : String) : String :=
  String.mk (ascL text.data)

/-- Last whitespace-separated token of the trimmed accumulator
(`currentSentence.trim().split(/\s+/).pop() || ''`). -/
def lastToken (s : List Char) : List Char :=
  ((trimL s).reverse.takeWhile (fun c => !isWS c)).reverse

/-- The abbreviation list of the sentence scanner
(`/^(Dr|Mr|Mrs|Ms|Prof|Jr|Sr|vs|etc|i\.e|e\.g|cf|viz|ibid|op|loc|p|pp|vol|ch|sec|fig)\.$/i`),
lowercased and with the trailing period attached. -/
def abbrevForms : List (List Char) :=
  [ "dr.".data, "mr.".data, "mrs.".data, "ms.".data, "prof.".data, "jr.".data
  , "sr.".data, "vs.".data, "etc.".data, "i.e.".data, "e.g.".data, "cf.".data
  , "viz.".data, "ibid.".data, "op.".data, "loc.".data, "p.".data, "pp.".data
  , "vol.".data, "ch.".data, "sec.".data, "fig.".data ]

/-- Abbreviation test applied to the previous word. -/
def isAbbrevWord (w : List Char) : Bool :=
  abbrevForms.contains (toLowerL w)

/-- The character-by-character sentence scanner of `extractQuotes`
(`generate-poincare-complete.ts` 1593-1627).  State = (accumulated
sentence, remaining input).  A terminal mark splits only when the previous
word is not an abbreviation, the next character is not a period or a
lowercase letter, and the next character is whitespace; that whitespace
character is then carried into the next accumulator (the `i++; continue`
in the source skips only the loop-bottom increment) and later trimmed
away. -/
def scanSentences : List Char → List Char → List (List Char)
  | acc, [] => if trimL acc = [] then [] else [trimL acc]
  | acc, [c] => scanSentences (acc ++ [c]) []
  | acc, c :: nx :: rest =>
    if isTerminal c then
      if isAbbrevWord (lastToken (acc ++ [c])) || nx = '.' || isLowerAZ nx then
        scanSentences (acc ++ [c]) (nx :: rest)
      else if isWS nx then
        trimL (acc ++ [c]) :: scanSentences [] (nx :: rest)
      else
        scanSentences (acc ++ [c]) (nx :: rest)
    else
      scanSentences (acc ++ [c]) (nx :: rest)

/-- `isCompleteSentence` (`generate-poincare-complete.ts` 1508-1512):
`/[.!?]["']?$/` holds of the trimmed text, which moreover ends neither in
a double period nor in `p.`. -/
def isCompleteSentence (text : List Char) : Bool :=
  let t := trimL text
  (match t.reverse with
   | [] => false
   | c :: rest =>
     isTerminal c ||
     ((c = '"' || c = apos) &&
       (match rest with | [] => false | d :: _ => isTerminal d)))
  && !(leadsWith "..".data.reverse t.reverse)
  && !(leadsWith ".p".data t.reverse)

/-- `/^\d+\.\d+\s+[A-Z]/` (section-number header such as
`9.0 The raven paradox`). -/
def matchSecHeader (s : List Char) : Bool :=
  let d1 := s.takeWhile isDigitCh
  let r1 := s.dropWhile isDigitCh
  !d1.isEmpty &&
  (match r1 with
   | '.' :: r2 =>
     let d2 := r2.takeWhile isDigitCh
     let r3 := r2.dropWhile isDigitCh
     !d2.isEmpty &&
     (let w := r3.takeWhile isWS
      let r4 := r3.dropWhile isWS
      !w.isEmpty && (match r4 with | u :: _ => isUpperAZ u | [] => false))
   | _ => false)

/-- `/^Chapter\s+\d+/i` and `/^Section\s+\d+/i`, parameterised by the
lowercased keyword. -/
def matchKwNum (kw : List Char) (s : List Char) : Bool :=
  leadsWith kw (toLowerL s) &&
  (let r := s.drop kw.length
   let w := r.takeWhile isWS
   let r2 := r.dropWhile isWS
   !w.isEmpty && (match r2 with | d :: _ => isDigitCh d | [] => false))

/-- The leading citation markers of
`/^(see|cf\.|e\.g\.|i\.e\.|viz\.|ibid\.|op\. cit\.|loc\. cit\.)/i`. -/
def citMarkers : List (List Char) :=
  [ "see".data, "cf.".data, "e.g.".data, "i.e.".data, "viz.".data
  , "ibid.".data, "op. cit.".data, "loc. cit.".data ]

/-- Case-insensitive test for a leading citation marker. -/
def startsCitMarker (s : List Char) : Bool :=
  citMarkers.any (fun m => leadsWith m (toLowerL s))

/-- One-position test for `\(\d{4}\)`. -/
def matchParenYearAt : List Char → Bool
  | '(' :: a :: b :: c :: d :: ')' :: _ =>
    isDigitCh a && isDigitCh b && isDigitCh c && isDigitCh d
  | _ => false

/-- `/\(\d{4}\)/` anywhere in the string. -/
def hasParenYear (s : List Char) : Bool := s.tails.any matchParenYearAt

/-- One-position test for `\d{4},\s*p\.?\s*\d+` (the pattern has no `/i`
flag, so the `p` is lowercase). -/
def matchYearPageAt : List Char → Bool
  | a :: b :: c :: d :: ',' :: r2 =>
    isDigitCh a && isDigitCh b && isDigitCh c && isDigitCh d &&
    (let r3 := r2.dropWhile isWS
     match r3 with
     | 'p' :: r4 =>
       let r5 := match r4 with | '.' :: t => t | _ => r4
       let r6 := r5.dropWhile isWS
       (match r6 with | e :: _ => isDigitCh e | [] => false)
     | _ => false)
  | _ => false

/-- `/\d{4},\s*p\.?\s*\d+/` anywhere in the string. -/
def hasYearPage (s : List Char) : Bool := s.tails.any matchYearPageAt

/-- `/^\s*-\s*[A-Z][a-z]+\s+[A-Z][a-z]+/` (dash-prefixed attribution line
such as `- William James`). -/
def matchDashAttrib (s : List Char) : Bool :=
  match s.dropWhile isWS with
  | '-' :: r2 =>
    (match r2.dropWhile isWS with
     | u :: r4 =>
       isUpperAZ u &&
       (let low := r4.takeWhile isLowerAZ
        let r5 := r4.dropWhile isLowerAZ
        !low.isEmpty &&
        (let w := r5.takeWhile isWS
         let r6 := r5.dropWhile isWS
         !w.isEmpty &&
         (match r6 with
          | v :: r7 => isUpperAZ v && !(r7.takeWhile isLowerAZ).isEmpty
          | [] => false)))
     | [] => false)
  | _ => false

/-- `/^["']?book,\s+the\s+/i`. -/
def matchBookThe (s : List Char) : Bool :=
  let s1 := match s with
            | c :: r => if c = '"' || c = apos then r else s
            | [] => s
  leadsWith "book,".data (toLowerL s1) &&
  (let r := s1.drop 5
   let w := r.takeWhile isWS
   let r2 := r.dropWhile isWS
   !w.isEmpty && leadsWith "the".data (toLowerL r2) &&
   !((r2.drop 3).takeWhile isWS).isEmpty)

/-- Whole-tail test for `,\s*p\.?$` with `/i`. -/
def matchCommaPageEnd : List Char → Bool
  | ',' :: r =>
    (match r.dropWhile isWS with
     | p :: rest => (p = 'p' || p = 'P') && (rest = [] || rest = ['.'])
     | [] => false)
  | _ => false

/-- `/,\s*p\.?$/i`: the string ends with a comma-page fragment. -/
def endsCommaPage (s : List Char) : Bool := s.tails.any matchCommaPageEnd

/-- One-position test for `\(\s*[A-Z][a-z]+,?\s*\d{4}[),\s]*$`; the class
`[),\s]*` must absorb the entire remainder for the `$` anchor to hold. -/
def matchParenCiteEndAt : List Char → Bool
  | '(' :: r1 =>
    (match r1.dropWhile isWS with
     | u :: r3 =>
       isUpperAZ u &&
       (let low := r3.takeWhile isLowerAZ
        let r4 := r3.dropWhile isLowerAZ
        !low.isEmpty &&
        (let r5 := match r4 with | ',' :: t => t | _ => r4
         let r6 := r5.dropWhile isWS
         match r6 with
         | a :: b :: c :: d :: r7 =>
           isDigitCh a && isDigitCh b && isDigitCh c && isDigitCh d &&
           r7.all (fun x => x = ')' || x = ',' || isWS x)
         | _ => false))
     | [] => false)
  | _ => false

/-- `/\(\s*[A-Z][a-z]+,?\s*\d{4}[),\s]*$/` anywhere in the string. -/
def hasParenCiteEnd (s : List Char) : Bool := s.tails.any matchParenCiteEndAt

/-- `isCitationFragment` (`generate-poincare-complete.ts` 1515-1533): the
disjunction of the ten enumerated patterns, in source order. -/
def isCitationFragment (text : List Char) : Bool :=
  matchSecHeader text ||
  matchKwNum "chapter".data text ||
  matchKwNum "section".data text ||
  startsCitMarker text ||
  hasParenYear text ||
  hasYearPage text ||
  matchDashAttrib text ||
  matchBookThe text ||
  endsCommaPage text ||
  hasParenCiteEnd text

/-- The fixed philosophical-vocabulary list of `scoreQuote`. -/
def philosophicalKeywords : List (List Char) :=
  [ "truth".data, "knowledge".data, "reality".data, "existence".data
  , "being".data, "consciousness".data, "mind".data, "reason".data
  , "logic".data, "ethics".data, "morality".data, "virtue".data
  , "justice".data, "freedom".data, "liberty".data, "necessity".data
  , "cause".data, "effect".data, "substance".data, "essence".data
  , "nature".data, "universe".data, "god".data, "soul".data
  , "perception".data, "experience".data, "understanding".data
  , "wisdom".data, "philosophy".data, "metaphysics".data
  , "epistemology".data ]

/-- `scoreQuote` (`generate-poincare-complete.ts` 1536-1574). -/
def scoreQuote (quote query : List Char) : Int :=
  let quoteLower := toLowerL quote
  let queryWords := (jsSplitWs (toLowerL query)).filter (fun w => 3 < w.length)
  let s1 : Int := 10 * (queryWords.countP (fun w => containsSeg quoteLower w) : Nat)
  let s2 : Int := 3 * (philosophicalKeywords.countP (fun k => containsSeg quoteLower k) : Nat)
  let s3 : Int := if quote.length < 100 then -5 else 0
  let s4 : Int := if 100 ≤ quote.length ∧ quote.length ≤ 300 then 10 else 0
  let s5 : Int := if 2 < digitRunCount quote then -5 else 0
  s1 + s2 + s3 + s4 + s5

/-- The structured chunk record returned by the retrieval layer
(`vector-search.ts` `StructuredChunk`); `distance` is a fixed-point
integer (thousandths) in place of a SQL float. -/
structure StructuredChunk where
  author : String
  paperTitle : String
  content : String
  chunkIndex : Nat
  distance : ℤ
  source : String
  figureId : String
  tokens : Nat
deriving DecidableEq, Repr

/-- One extracted quote record
(`{ quote, source, chunkIndex, score }` in `extractQuotes`). -/
structure QuoteRec where
  quote : List Char
  source : String
  chunkIndex : Nat
  score : Int
deriving DecidableEq, Repr

/-- The markup-residue test of `extractQuotes`
(`generate-poincare-complete.ts` 1648-1653). -/
def hasFormattingArtifacts (s : List Char) : Bool :=
  containsSeg s "(<< back)".data || containsSeg s "(<<back)".data ||
  containsSeg s "[<< back]".data || containsSeg s "*_".data ||
  containsSeg s "_*".data

/-- Count of the characters `< > { } | \` in the sentence
(`(sentence.match(/[<>{}|\\]/g) || []).length`). -/
def specialCharCount (s : List Char) : Nat :=
  s.countP (fun c =>
    c = '<' || c = '>' || c = Char.ofNat 123 || c = Char.ofNat 125 ||
    c = '|' || c = Char.ofNat 92)

/-- The per-sentence phase of `extractQuotes`: spell correction followed
by the completeness, size, word-count, citation, artifact and
special-character filters; survivors are scored and recorded. -/
def sentenceFilter (query : List Char) (minLength : Nat) (p : StructuredChunk)
    (sentRaw : List Char) : Option QuoteRec :=
  let sentence := ascL sentRaw
  if !isCompleteSentence sentence then none
  else if sentence.length < minLength || 500 < sentence.length then none
  else if (jsSplitWs sentence).length < 8 then none
  else if isCitationFragment sentence then none
  else if hasFormattingArtifacts sentence then none
  else if 5 < specialCharCount sentence then none
  else some ⟨sentence, p.paperTitle, p.chunkIndex, scoreQuote sentence query⟩

/-- Per-passage phase of `extractQuotes`: whitespace-normalise the
content, scan it into sentences, and run each through `sentenceFilter`. -/
def processPassage (query : List Char) (minLength : Nat)
    (p : StructuredChunk) : List QuoteRec :=
  (scanSentences [] (trimL (collapseWs p.content.data))).filterMap
    (sentenceFilter query minLength p)

/-- Distinct keys in order of first occurrence. -/
def keysFirst : List (List Char) → List (List Char)
  | [] => []
  | k :: ks => k :: (keysFirst ks).filter (fun x => !(x == k))

/-- `Array.from(new Map(quotes.map(q => [q.quote, q])).values())`: keys in
order of first occurrence, each mapped to the last record bearing that
key. -/
def dedupeByQuote (l : List QuoteRec) : List QuoteRec :=
  (keysFirst (l.map (fun r => r.quote))).map (fun k =>
    ((l.filter (fun r => r.quote == k)).getLast?).getD ⟨k, "", 0, 0⟩)

/-- `extractQuotes` (`generate-poincare-complete.ts` 1577-1681): collect
candidate quotes over all passages, dedupe by quote text, stable-sort by
descending score, and truncate to `maxQuotes`. -/
def extractQuotes (passages : List StructuredChunk) (query : String)
    (minLength : Nat := 50) (maxQuotes : Nat := 50) : List QuoteRec :=
  let quotes := passages.flatMap (fun p => processPassage query.data minLength p)
  let uniqueQuotes := dedupeByQuote quotes
  let sorted := stableSortBy (fun a b => decide (b.score ≤ a.score)) uniqueQuotes
  sorted.take maxQuotes

/-- One stored row of the `paper_chunks` table, as read by the SQL in
`vector-search.ts` (only the consulted columns are modelled). -/
structure PaperChunkRow where
  author : String
  paper_title : String
  content : String
  chunk_index : Nat
  figure_id : String
deriving DecidableEq, Repr

/-- Postgres `a ILIKE '%' + n + '%'`, modelled as case-insensitive
substring containment (no wildcard characters inside the filter are
modelled). -/
def ilikeContains (hay needle : String) : Bool :=
  containsSeg (toLowerL hay.data) (toLowerL needle.data)

/-- The estimated token count
`Math.ceil(content.split(/\s+/).length * 1.3)`, modelled as the exact
rational ceiling. -/
def jsTokens (content : String) : Nat :=
  (13 * (jsSplitWs content.data).length + 9) / 10

/-- Outcome of the external collaborators for one retrieval call: the
embedding provider (`openai.embeddings.create`), the corpus store
(`db.execute`), and the cosine distance each stored row receives against
the computed query embedding. -/
structure RetrievalEnv where
  embedOutcome : Except String Unit
  storeOutcome : Except String (List PaperChunkRow)
  dist : PaperChunkRow → ℤ

/-- Build the `StructuredChunk` of one selected row, as in both branches
of `searchPhilosophicalChunks` (`source` and `figureId` are the literal
`'common'` in both). -/
def rowToChunk (dist : PaperChunkRow → ℤ) (r : PaperChunkRow) : StructuredChunk :=
  ⟨r.author, r.paper_title, r.content, r.chunk_index, dist r, "common",
   "common", jsTokens r.content⟩

/-- The SQL query of `searchPhilosophicalChunks`: rows with
`figure_id = 'common'` (and, when present, `author ILIKE '%f%'`), ordered
by ascending distance, limited to `topK`. -/
def sqlCommonQuery (rows : List PaperChunkRow) (dist : PaperChunkRow → ℤ)
    (filterAuthor : Option String) (topK : Nat) : List PaperChunkRow :=
  (stableSortBy (fun a b => decide (dist a ≤ dist b))
    (rows.filter (fun r =>
      r.figure_id == "common" &&
      match filterAuthor with
      | some f => ilikeContains r.author f
      | none => true))).take topK

/-- JS truthiness of the optional `authorFilter` parameter (absent or
empty string are falsy). -/
def optTruthy : Option String → Bool
  | none => false
  | some s => !s.isEmpty

/-- The `try` body of `searchPhilosophicalChunks`
(`vector-search.ts` 30-110): embed the question, then run the strict
author-filtered query or the unfiltered common query. -/
def searchBody (env : RetrievalEnv) (topK : Nat)
    (authorFilter : Option String) : Except String (List StructuredChunk) := do
  let _ ← env.embedOutcome
  let rows ← env.storeOutcome
  if optTruthy authorFilter then
    pure ((sqlCommonQuery rows env.dist authorFilter topK).map (rowToChunk env.dist))
  else
    pure ((sqlCommonQuery rows env.dist none topK).map (rowToChunk env.dist))

/-- `searchPhilosophicalChunks` including its `catch` handler, which logs
and resolves with `[]`; the `question` parameter reaches only the
embedding provider (represented by `env.embedOutcome`) and `figureId` is
accepted but never used by the queries. -/
def searchPhilosophicalChunks (env : RetrievalEnv) (question : String)
    (topK : Nat) (figureId : String) (authorFilter : Option String) :
    Except String (List StructuredChunk) :=
  match searchBody env topK authorFilter with
  | .ok r => .ok r
  | .error _ => .ok []

/-- The `AUTHOR_ALIASES` table of `vector-search.ts` (188-229). -/
def AUTHOR_ALIASES : List (String × String) :=
  [ ("john-michael kuczynski", "Kuczynski")
  , ("j-m kuczynski", "Kuczynski")
  , ("j.m. kuczynski", "Kuczynski")
  , ("j.-m. kuczynski", "Kuczynski")
  , ("bertrand russell", "Russell")
  , ("william james", "James")
  , ("carl jung", "Jung")
  , ("c.g. jung", "Jung")
  , ("sigmund freud", "Freud")
  , ("friedrich nietzsche", "Nietzsche")
  , ("karl marx", "Marx")
  , ("john locke", "Locke")
  , ("immanuel kant", "Kant")
  , ("georg hegel", "Hegel")
  , ("g.w.f. hegel", "Hegel")
  , ("rené descartes", "Descartes")
  , ("rene descartes", "Descartes")
  , ("john dewey", "Dewey")
  , ("gottfried leibniz", "Leibniz")
  , ("isaac newton", "Newton")
  , ("charles darwin", "Darwin")
  , ("thorstein veblen", "Veblen")
  , ("vladimir lenin", "Lenin")
  , ("friedrich engels", "Engels")
  , ("baruch spinoza", "Spinoza")
  , ("thomas hobbes", "Hobbes")
  , ("george berkeley", "Berkeley")
  , ("jean-jacques rousseau", "Rousseau")
  , ("john stuart mill", "Mill")
  , ("edgar allan poe", "Poe")
  , ("ludwig von mises", "Mises")
  , ("adam smith", "Smith")
  , ("herbert spencer", "Spencer")
  , ("alfred adler", "Adler")
  , ("charles peirce", "Peirce")
  , ("charles sanders peirce", "Peirce")
  , ("henri poincare", "Poincare")
  , ("henri poincaré", "Poincare")
  , ("moses maimonides", "Maimonides") ]

/-- Ordered lookup of the normalised input in the alias table. -/
def aliasFind : List (String × String) → List Char → Option String
  | [], _ => none
  | p :: ps, k => if p.1.data = k then some p.2 else aliasFind ps k

/-- Separator class of `split(/[\s-]+/)`. -/
def isSepWsHyph (c : Char) : Bool := isWS c || c.toNat = 45

/-- JS `str.split(/[\s-]+/)`. -/
def jsSplitSep : List Char → List (List Char)
  | [] => [[]]
  | c :: cs =>
    if isSepWsHyph c then
      match cs with
      | [] => [[], []]
      | d :: _ => if isSepWsHyph d then jsSplitSep cs else [] :: jsSplitSep cs
    else
      match jsSplitSep cs with
      | [] => [[c]]
      | f :: fs => (c :: f) :: fs

/-- `lastName.charAt(0).toUpperCase() + lastName.slice(1)`. -/
def capitalizeHead : List Char → List Char
  | [] => []
  | c :: r => jsToUpper c :: r

/-- `normalizeAuthorName` (`vector-search.ts` 235-255). -/
def normalizeAuthorName (authorInput : String) : String :=
  if authorInput = "" then authorInput
  else
    let normalized := trimL (toLowerL authorInput.data)
    match aliasFind AUTHOR_ALIASES normalized with
    | some canonical => canonical
    | none =>
      let words := (jsSplitSep normalized).filter (fun w => 2 < w.length)
      match words.getLast? with
      | some lastName => String.mk (capitalizeHead lastName)
      | none => authorInput

/-- The fixed candidate list of `detectAuthorFromQuery`
(`vector-search.ts` 263-270). -/
def authorPatterns : List String :=
  [ "Kuczynski", "Russell", "Nietzsche", "Plato", "Aristotle", "Marx"
  , "Kant", "Hegel", "Freud", "Jung", "James", "Dewey", "Leibniz"
  , "Newton", "Darwin", "Veblen", "Lenin", "Engels", "Descartes"
  , "Spinoza", "Hobbes", "Berkeley", "Rousseau", "Mill", "Poe"
  , "Mises", "Smith", "Spencer", "Marden", "Adler", "Peirce"
  , "Poincare", "Maimonides", "Locke" ]

/-- The corpus verification of one candidate:
`COUNT(*) > 0` over `figure_id = 'common' AND author ILIKE '%name%'`. -/
def authorHasChunks (rows : List PaperChunkRow) (name : String) : Bool :=
  rows.any (fun r => r.figure_id == "common" && ilikeContains r.author name)

/-- The candidate loop of `detectAuthorFromQuery`: textual match first,
then corpus verification; on a failed verification the loop continues
with the remaining candidates. -/
def detectGo (rows : List PaperChunkRow) (queryUpper : List Char) :
    List String → Option String
  | [] => none
  | n :: ps =>
    if containsSeg queryUpper (toUpperL n.data) then
      if authorHasChunks rows n then some n
      else detectGo rows queryUpper ps
    else detectGo rows queryUpper ps

/-- `detectAuthorFromQuery` (`vector-search.ts` 261-291); the corpus store
is modelled by its row list (a successful query). -/
def detectAuthorFromQuery (rows : List PaperChunkRow) (queryText : String) :
    Option String :=
  detectGo rows (toUpperL queryText.data) authorPatterns

/-! ### Generic facts about the corpus query -/

/-- Length of a query result: the requested limit capped by the number of
matching rows. -/
theorem sqlCommonQuery_length (rows : List PaperChunkRow)
    (dist : PaperChunkRow → ℤ) (fa : Option String) (topK : Nat) :
    (sqlCommonQuery rows dist fa topK).length =
      min topK (rows.countP (fun r =>
        r.figure_id == "common" &&
        match fa with
        | some f => ilikeContains r.author f
        | none => true)) := by
  unfold sqlCommonQuery
  rw [List.length_take, stableSortBy_length, List.countP_eq_length_filter]

/-- Every selected row is a matching stored row. -/
theorem sqlCommonQuery_mem (rows : List PaperChunkRow)
    (dist : PaperChunkRow → ℤ) (fa : Option String) (topK : Nat)
    (r : PaperChunkRow) (h : r ∈ sqlCommonQuery rows dist fa topK) :
    r ∈ rows ∧ r.figure_id = "common" ∧
      (∀ f, fa = some f → ilikeContains r.author f = true) := by
  unfold sqlCommonQuery at h
  have h2 := (stableSortBy_mem _ _ _).mp (List.mem_of_mem_take h)
  have h3 := List.mem_filter.mp h2
  refine ⟨h3.1, ?_, ?_⟩
  · have := h3.2
    cases fa <;> simp_all
  · intro f hf
    subst hf
    have := h3.2
    simp_all

/-- A query result is sorted by ascending distance. -/
theorem sqlCommonQuery_sorted (rows : List PaperChunkRow)
    (dist : PaperChunkRow → ℤ) (fa : Option String) (topK : Nat) :
    List.Pairwise (fun a b => dist a ≤ dist b)
      (sqlCommonQuery rows dist fa topK) := by
  unfold sqlCommonQuery
  have hs := stableSortBy_pairwise (fun a b => decide (dist a ≤ dist b))
    (fun a b => by
      rcases le_total (dist a) (dist b) with h | h
      · exact Or.inl (by simpa using h)
      · exact Or.inr (by simpa using h))
    (fun a b c hab hbc => by
      simp only [decide_eq_true_eq] at *
      exact le_trans hab hbc)
    (rows.filter (fun r =>
      r.figure_id == "common" &&
      match fa with
      | some f => ilikeContains r.author f
      | none => true))
  exact (hs.sublist (List.take_sublist _ _)).imp (by simp)

/-- Unfolding `searchPhilosophicalChunks` on successful collaborators. -/
theorem search_ok_eq (env : RetrievalEnv) (question : String) (topK : Nat)
    (figureId : String) (af : Option String) (rows : List PaperChunkRow)
    (hemb : env.embedOutcome = .ok ()) (hstore : env.storeOutcome = .ok rows) :
    searchPhilosophicalChunks env question topK figureId af =
      .ok ((sqlCommonQuery rows env.dist
             (if optTruthy af then af else none) topK).map (rowToChunk env.dist)) := by
  unfold searchPhilosophicalChunks searchBody
  rw [hemb, hstore]
  by_cases h : optTruthy af = true <;> simp only [h, if_true, if_false] <;> rfl

deriving instance DecidableEq for Except

/-! ### Concrete corpora used to instantiate the retrieval theorems -/

/-- Scenario B corpus: three rows in a private author pool
(`figure_id = 'jmk'`) at distances .1/.3/.5 and three rows in the shared
pool at .05/.2/.4. -/
def dualRows : List PaperChunkRow :=
  [ ⟨"Kuczynski", "OwnA", "o1", 0, "jmk"⟩
  , ⟨"Kuczynski", "OwnB", "o2", 1, "jmk"⟩
  , ⟨"Kuczynski", "OwnC", "o3", 2, "jmk"⟩
  , ⟨"James", "ComA", "c1", 10, "common"⟩
  , ⟨"Freud", "ComB", "c2", 11, "common"⟩
  , ⟨"Marx", "ComC", "c3", 12, "common"⟩ ]

/-- Distances of the Scenario B corpus against the query embedding, in
thousandths: the own pool sits at .1/.3/.5 and the shared pool at
.05/.2/.4. -/
def dualDist (r : PaperChunkRow) : ℤ :=
  if r.chunk_index = 0 then 100 else if r.chunk_index = 1 then 300
  else if r.chunk_index = 2 then 500 else if r.chunk_index = 10 then 50
  else if r.chunk_index = 11 then 200 else 400

/-- Successful collaborators over the Scenario B corpus. -/
def dualEnv : RetrievalEnv := ⟨.ok (), .ok dualRows, dualDist⟩

/-- What the code actually returns in Scenario B with `topK = 4`: the
three shared-pool rows, and nothing from the private pool. -/
def dualResult : List StructuredChunk :=
  [ ⟨"James", "ComA", "c1", 10, 50, "common", "common", 2⟩
  , ⟨"Freud", "ComB", "c2", 11, 200, "common", "common", 2⟩
  , ⟨"Marx", "ComC", "c3", 12, 400, "common", "common", 2⟩ ]

/-- Strict-mode corpus: two rows matching `Kuczynski` and three
topically-relevant rows from other authors, all in the shared pool. -/
def strictRows : List PaperChunkRow :=
  [ ⟨"J.-M. Kuczynski", "K1", "k1", 0, "common"⟩
  , ⟨"J.-M. Kuczynski", "K2", "k2", 1, "common"⟩
  , ⟨"James", "J1", "j1", 2, "common"⟩
  , ⟨"Freud", "F1", "f1", 3, "common"⟩
  , ⟨"Marx", "M1", "m1", 4, "common"⟩ ]

/-- Distances of the strict-mode corpus (thousandths). -/
def strictDist (r : PaperChunkRow) : ℤ := (r.chunk_index : ℤ) * 100

/-- Successful collaborators over the strict-mode corpus. -/
def strictEnv : RetrievalEnv := ⟨.ok (), .ok strictRows, strictDist⟩

/-- The strict-mode result for `authorFilter = "Kuczynski"`, `topK = 10`:
exactly the two matching rows. -/
def strictResult : List StructuredChunk :=
  [ ⟨"J.-M. Kuczynski", "K1", "k1", 0, 0, "common", "common", 2⟩
  , ⟨"J.-M. Kuczynski", "K2", "k2", 1, 100, "common", "common", 2⟩ ]

/-- An environment whose embedding provider fails. -/
def envEmbedFail : RetrievalEnv := ⟨.error "provider down", .ok dualRows, dualDist⟩

/-- An environment whose corpus store fails. -/
def envStoreFail : RetrievalEnv := ⟨.ok (), .error "store down", dualDist⟩

/-! ### C2: strict-author retrieval -/

/-- C2: with a non-empty author filter, `searchPhilosophicalChunks`
returns only chunks whose author case-insensitively contains the filter
string; its result length is exactly the number of matching shared-pool
rows capped at `topK`, so no backfilling from other authors ever occurs
and fewer than `topK` results is a possible (non-error) outcome. -/
theorem c2_strict_author_mode
    (env : RetrievalEnv) (question : String) (topK : Nat) (figureId : String)
    (f : String) (rows : List PaperChunkRow) (l : List StructuredChunk)
    (hf : f ≠ "") (hemb : env.embedOutcome = .ok ())
    (hstore : env.storeOutcome = .ok rows)
    (hres : searchPhilosophicalChunks env question topK figureId (some f) = .ok l) :
    (∀ c ∈ l, ilikeContains c.author f = true) ∧
    l.length = min topK (rows.countP (fun r =>
      r.figure_id == "common" && ilikeContains r.author f)) := by
  have htr : optTruthy (some f) = true := by
    cases h : f.isEmpty with
    | false => simp [optTruthy, h]
    | true => exact absurd ((String.isEmpty_iff f).mp h) hf
  rw [search_ok_eq env question topK figureId (some f) rows hemb hstore, htr,
    if_pos rfl] at hres
  have hl : l = (sqlCommonQuery rows env.dist (some f) topK).map (rowToChunk env.dist) := by
    cases hres
    rfl
  constructor
  · intro c hc
    rw [hl] at hc
    obtain ⟨r, hr, hcr⟩ := List.mem_map.mp hc
    have := (sqlCommonQuery_mem rows env.dist (some f) topK r hr).2.2 f rfl
    rw [← hcr]
    exact this
  · rw [hl, List.length_map, sqlCommonQuery_length]

/-- Witness for `c2_strict_author_mode`: Scenario C of the specification
(two matching rows, `topK = 10`, result has exactly the two matching
chunks). -/
theorem c2_strict_author_mode_witness :
    searchPhilosophicalChunks strictEnv "q" 10 "common" (some "Kuczynski") =
      .ok strictResult ∧
    strictResult.length = min 10 (strictRows.countP (fun r =>
      r.figure_id == "common" && ilikeContains r.author "Kuczynski")) :=
  ⟨by decide,
   (c2_strict_author_mode strictEnv "q" 10 "common" "Kuczynski" strictRows
     strictResult (by decide) rfl rfl (by decide)).2⟩

/-! ### C3: what no-filter retrieval actually does -/

/-- C3 counterexample: in Scenario B (own pool at .1/.3/.5, shared pool
at .05/.2/.4, `topK = 4`, distances in thousandths) the code performs a
single shared-pool query: the result is the three shared-pool chunks
`[.05, .2, .4]`, not the quota-merged
`[.05 (common), .1 (own), .2 (common), .3 (own)]` the claim describes,
and no own-pool chunk is returned at all. -/
theorem c3_dual_pool_counterexample :
    searchPhilosophicalChunks dualEnv "q" 4 "jmk" none = .ok dualResult ∧
    dualResult.map (fun c => c.source) = ["common", "common", "common"] ∧
    dualResult.length = 3 ∧
    dualResult.map (fun c => c.distance) ≠ [50, 100, 200, 300] := by
  refine ⟨by decide, by decide, by decide, by decide⟩

/-- C3 (amended): with no author filter, `searchPhilosophicalChunks`
computes no per-pool quotas: it runs one query over the shared pool
(`figure_id = 'common'`), so the result is sorted by ascending distance,
drawn entirely from shared-pool rows (each tagged `source = 'common'`),
and of length `min topK` (number of shared-pool rows); rows of any other
pool are never returned. -/
theorem c3_unfiltered_common_only
    (env : RetrievalEnv) (question : String) (topK : Nat) (figureId : String)
    (rows : List PaperChunkRow) (l : List StructuredChunk)
    (hemb : env.embedOutcome = .ok ()) (hstore : env.storeOutcome = .ok rows)
    (hres : searchPhilosophicalChunks env question topK figureId none = .ok l) :
    List.Pairwise (fun a b => a.distance ≤ b.distance) l ∧
    (∀ c ∈ l, c.source = "common" ∧
      ∃ r ∈ rows, r.figure_id = "common" ∧ c = rowToChunk env.dist r) ∧
    l.length = min topK (rows.countP (fun r => r.figure_id == "common")) := by
  rw [search_ok_eq env question topK figureId none rows hemb hstore] at hres
  have hl : l = (sqlCommonQuery rows env.dist none topK).map (rowToChunk env.dist) := by
    cases hres
    rfl
  subst hl
  refine ⟨?_, ?_, ?_⟩
  · have hs := sqlCommonQuery_sorted rows env.dist none topK
    exact List.pairwise_map.mpr (hs.imp (fun h => h))
  · intro c hc
    obtain ⟨r, hr, hcr⟩ := List.mem_map.mp hc
    obtain ⟨hrow, hfig, _⟩ := sqlCommonQuery_mem rows env.dist none topK r hr
    exact ⟨by rw [← hcr]; rfl, r, hrow, hfig, hcr.symm⟩
  · rw [List.length_map, sqlCommonQuery_length]
    congr 1
    apply List.countP_congr
    intro r _
    simp

/-- Witness for `c3_unfiltered_common_only`: the Scenario B corpus. -/
theorem c3_unfiltered_common_only_witness :
    searchPhilosophicalChunks dualEnv "q" 4 "jmk" none = .ok dualResult ∧
    dualResult.length = min 4 (dualRows.countP (fun r => r.figure_id == "common")) :=
  ⟨by decide,
   (c3_unfiltered_common_only dualEnv "q" 4 "jmk" dualRows dualResult
     rfl rfl (by decide)).2.2⟩

/-! ### C4: failure handling -/

/-- C4 counterexample: when the embedding provider (resp. the corpus
store) fails, `searchPhilosophicalChunks` does not abort with an error at
all — the `catch` swallows the failure and the call resolves with the
empty chunk list, indistinguishable from a zero-match result. -/
theorem c4_retrieval_error_counterexample :
    searchPhilosophicalChunks envEmbedFail "q" 6 "common" none = .ok [] ∧
    searchPhilosophicalChunks envStoreFail "q" 6 "common" none = .ok [] := by
  refine ⟨by decide, by decide⟩

/-- C4 (amended): if the embedding provider or the corpus store fails
during a retrieval call, the call returns a successful empty result set —
the raw provider/store error is never propagated to the caller, and no
error value of any kind is surfaced. -/
theorem c4_failure_swallowed
    (env : RetrievalEnv) (question : String) (topK : Nat) (figureId : String)
    (af : Option String)
    (hfail : (∃ e, env.embedOutcome = .error e) ∨ (∃ e, env.storeOutcome = .error e)) :
    searchPhilosophicalChunks env question topK figureId af = .ok [] ∧
    ∀ e, searchPhilosophicalChunks env question topK figureId af ≠ .error e := by
  have hok : searchPhilosophicalChunks env question topK figureId af = .ok [] := by
    rcases hfail with ⟨e, he⟩ | ⟨e, he⟩
    · unfold searchPhilosophicalChunks searchBody
      rw [he]
      rfl
    · unfold searchPhilosophicalChunks searchBody
      rw [he]
      rcases hemb : env.embedOutcome with e2 | u
      · rfl
      · rfl
  exact ⟨hok, fun e h => by rw [hok] at h; cases h⟩

/-- Witness for `c4_failure_swallowed`: the failing-provider environment. -/
theorem c4_failure_swallowed_witness :
    searchPhilosophicalChunks envEmbedFail "q2" 3 "common" (some "Kuczynski") = .ok [] :=
  (c4_failure_swallowed envEmbedFail "q2" 3 "common" (some "Kuczynski")
    (Or.inl ⟨"provider down", rfl⟩)).1

/-! ### C6: result-set caps -/

/-- C6: result sets never exceed the requested cap — every successful
retrieval returns at most `topK` chunks (in strict and no-filter mode
alike, and the error path returns the empty list), and `extractQuotes`
returns at most `maxQuotes` quotes. -/
theorem c6_result_caps :
    (∀ (env : RetrievalEnv) (question : String) (topK : Nat) (figureId : String)
        (af : Option String) (l : List StructuredChunk),
        searchPhilosophicalChunks env question topK figureId af = .ok l →
        l.length ≤ topK) ∧
    (∀ (passages : List StructuredChunk) (query : String)
        (minLength maxQuotes : Nat),
        (extractQuotes passages query minLength maxQuotes).length ≤ maxQuotes) := by
  constructor
  · intro env question topK figureId af l hres
    rcases hemb : env.embedOutcome with e | u
    · have : searchPhilosophicalChunks env question topK figureId af = .ok [] := by
        unfold searchPhilosophicalChunks searchBody
        rw [hemb]
        rfl
      rw [this] at hres
      cases hres
      simp
    · obtain ⟨⟩ := u
      rcases hstore : env.storeOutcome with e | rows
      · have : searchPhilosophicalChunks env question topK figureId af = .ok [] := by
          unfold searchPhilosophicalChunks searchBody
          rw [hemb, hstore]
          rfl
        rw [this] at hres
        cases hres
        simp
      · rw [search_ok_eq env question topK figureId af rows hemb hstore] at hres
        cases hres
        rw [List.length_map, sqlCommonQuery_length]
        exact Nat.min_le_left _ _
  · intro passages query minLength maxQuotes
    unfold extractQuotes
    exact List.length_take_le _ _

/-- Witness for `c6_result_caps`: the Scenario B retrieval and a concrete
quote extraction both stay within their caps. -/
theorem c6_result_caps_witness :
    searchPhilosophicalChunks dualEnv "q" 4 "jmk" none = .ok dualResult ∧
    dualResult.length ≤ 4 :=
  ⟨by decide, c6_result_caps.1 dualEnv "q" 4 "jmk" none dualResult (by decide)⟩

/-! ### Membership lemmas for the quote extractor -/

theorem keysFirst_subset (ks : List (List Char)) (k : List Char)
    (h : k ∈ keysFirst ks) : k ∈ ks := by
  induction ks with
  | nil => cases h
  | cons a as ih =>
    rcases List.mem_cons.mp h with rfl | h2
    · exact List.mem_cons_self _ _
    · exact List.mem_cons_of_mem _ (ih (List.mem_of_mem_filter h2))

theorem dedupeByQuote_subset (l : List QuoteRec) (r : QuoteRec)
    (h : r ∈ dedupeByQuote l) : r ∈ l := by
  unfold dedupeByQuote at h
  obtain ⟨k, hk, hr⟩ := List.mem_map.mp h
  have hkl : k ∈ l.map (fun r => r.quote) := keysFirst_subset _ _ hk
  obtain ⟨r0, hr0, hr0q⟩ := List.mem_map.mp hkl
  have hne : (l.filter (fun r => r.quote == k)) ≠ [] := by
    intro hnil
    have : r0 ∈ l.filter (fun r => r.quote == k) :=
      List.mem_filter.mpr ⟨hr0, by simp [hr0q]⟩
    rw [hnil] at this
    cases this
  rcases hlast : (l.filter (fun r => r.quote == k)).getLast? with _ | x
  · exact absurd (List.getLast?_eq_none_iff.mp hlast) hne
  · rw [hlast] at hr
    simp only [Option.getD_some] at hr
    subst hr
    exact List.mem_of_mem_filter (List.mem_of_getLast?_eq_some hlast)

/-- Every extracted quote record comes from one sentence of one input
passage, via `sentenceFilter`. -/
theorem extractQuotes_mem (passages : List StructuredChunk) (query : String)
    (minLength maxQuotes : Nat) (r : QuoteRec)
    (h : r ∈ extractQuotes passages query minLength maxQuotes) :
    ∃ p ∈ passages, ∃ sent ∈ scanSentences [] (trimL (collapseWs p.content.data)),
      sentenceFilter query.data minLength p sent = some r := by
  unfold extractQuotes at h
  have h2 := (stableSortBy_mem _ _ _).mp (List.mem_of_mem_take h)
  have h3 := dedupeByQuote_subset _ _ h2
  obtain ⟨p, hp, hr⟩ := List.mem_flatMap.mp h3
  obtain ⟨sent, hsent, hsf⟩ := List.mem_filterMap.mp hr
  exact ⟨p, hp, sent, hsent, hsf⟩

/-- Field-level content of a successful `sentenceFilter` run: the record
carries the corrected sentence and all filters passed. -/
theorem sentenceFilter_some (query : List Char) (minLength : Nat)
    (p : StructuredChunk) (sent : List Char) (r : QuoteRec)
    (h : sentenceFilter query minLength p sent = some r) :
    r.quote = ascL sent ∧
    isCompleteSentence r.quote = true ∧
    minLength ≤ r.quote.length ∧ r.quote.length ≤ 500 ∧
    8 ≤ (jsSplitWs r.quote).length ∧
    isCitationFragment r.quote = false ∧
    r.source = p.paperTitle ∧ r.chunkIndex = p.chunkIndex := by
  unfold sentenceFilter at h
  dsimp only at h
  split_ifs at h with h1 h2 h3 h4 h5 h6 <;> cases h
  simp only [Bool.not_eq_true] at h1
  simp only [Bool.or_eq_true, decide_eq_true_eq, not_or] at h2
  simp only [decide_eq_true_eq, not_lt] at h3
  simp only [Bool.not_eq_true] at h4
  refine ⟨rfl, by simpa using h1, ?_, ?_, ?_, h4, rfl, rfl⟩ <;> dsimp only <;> omega

/-! ### C8: size filters of the quote extractor -/

/-- C8: no quote returned by `extractQuotes` is shorter than `minLength`
characters, longer than 500 characters, or made of fewer than 8 words
(word count as the code computes it, `sentence.split(/\s+/).length`). -/
theorem c8_quote_size_bounds (passages : List StructuredChunk) (query : String)
    (minLength maxQuotes : Nat) (r : QuoteRec)
    (h : r ∈ extractQuotes passages query minLength maxQuotes) :
    minLength ≤ r.quote.length ∧ r.quote.length ≤ 500 ∧
    8 ≤ (jsSplitWs r.quote).length := by
  obtain ⟨p, _, sent, _, hsf⟩ := extractQuotes_mem passages query minLength maxQuotes r h
  obtain ⟨_, _, h3, h4, h5, _⟩ := sentenceFilter_some query.data minLength p sent r hsf
  exact ⟨h3, h4, h5⟩

/-- The sage passage: a single complete 13-word sentence containing the
un-apostrophised forms `wont` and `cant`. -/
def sagePassage : StructuredChunk :=
  ⟨"Marden", "The Secret of Achievement",
   "The sage kept his wont and he spoke no cant about the soul.",
   7, 0, "common", "common", 17⟩

/-- The quote `extractQuotes` mines from `sagePassage` (score: `soul`
keyword +3, length 61 < 100 gives -5). -/
def sageQuote : QuoteRec :=
  ⟨"The sage kept his won".data ++ apos :: "t and he spoke no can".data ++
     apos :: "t about the soul.".data,
   "The Secret of Achievement", 7, -2⟩

/-- Witness for `c8_quote_size_bounds` at the sage passage. -/
theorem c8_quote_size_bounds_witness :
    sageQuote ∈ extractQuotes [sagePassage] "" 50 50 ∧
    50 ≤ sageQuote.quote.length ∧ sageQuote.quote.length ≤ 500 ∧
    8 ≤ (jsSplitWs sageQuote.quote).length :=
  ⟨by decide, c8_quote_size_bounds [sagePassage] "" 50 50 sageQuote (by decide)⟩

/-! ### C9: author detection -/

/-- Position of the first hit of `find?`. -/
theorem find?_first {α : Type} (p : α → Bool) (l : List α) (a : α)
    (h : l.find? p = some a) :
    p a = true ∧ ∃ l1 l2, l = l1 ++ a :: l2 ∧ ∀ b ∈ l1, p b = false := by
  induction l with
  | nil => cases h
  | cons x xs ih =>
    rcases hp : p x with _ | _
    · rw [List.find?_cons_of_neg _ (by simp [hp])] at h
      obtain ⟨pa, l1, l2, heq, hall⟩ := ih h
      refine ⟨pa, x :: l1, l2, by rw [heq]; rfl, ?_⟩
      intro b hb
      rcases List.mem_cons.mp hb with rfl | hb2
      · exact hp
      · exact hall b hb2
    · rw [List.find?_cons_of_pos _ hp] at h
      cases h
      exact ⟨hp, [], xs, rfl, by simp⟩

/-- The candidate loop equals `find?` over the conjunction of the textual
test and the corpus verification: a candidate that fails verification is
skipped and the scan continues. -/
theorem detectGo_eq_find (rows : List PaperChunkRow) (queryUpper : List Char)
    (l : List String) :
    detectGo rows queryUpper l =
      l.find? (fun n => containsSeg queryUpper (toUpperL n.data) &&
        authorHasChunks rows n) := by
  induction l with
  | nil => rfl
  | cons n ps ih =>
    unfold detectGo
    rcases h1 : containsSeg queryUpper (toUpperL n.data) with _ | _
    · rw [if_neg (by simp), ih, List.find?_cons_of_neg _ (by simp [h1])]
    · rcases h2 : authorHasChunks rows n with _ | _
      · rw [if_pos rfl, if_neg (by simp), ih,
          List.find?_cons_of_neg _ (by simp [h1, h2])]
      · rw [if_pos rfl, if_pos rfl, List.find?_cons_of_pos _ (by simp [h1, h2])]

/-- C9: `detectAuthorFromQuery` returns `some n` exactly for the first
candidate of its fixed ordered list that both occurs case-insensitively
in the query text and is verified to have at least one matching
shared-pool chunk; earlier candidates all fail one of the two tests, a
candidate that fails corpus verification is never returned, and the
result is `none` precisely when no candidate passes both tests. -/
theorem c9_detect_author (rows : List PaperChunkRow) (queryText : String) :
    (∀ n, detectAuthorFromQuery rows queryText = some n →
      containsSeg (toUpperL queryText.data) (toUpperL n.data) = true ∧
      authorHasChunks rows n = true ∧
      ∃ l1 l2, authorPatterns = l1 ++ n :: l2 ∧
        ∀ m ∈ l1, ¬(containsSeg (toUpperL queryText.data) (toUpperL m.data) = true ∧
                     authorHasChunks rows m = true)) ∧
    (detectAuthorFromQuery rows queryText = none ↔
      ∀ n ∈ authorPatterns,
        ¬(containsSeg (toUpperL queryText.data) (toUpperL n.data) = true ∧
          authorHasChunks rows n = true)) := by
  constructor
  · intro n hn
    rw [detectAuthorFromQuery, detectGo_eq_find] at hn
    obtain ⟨pa, l1, l2, heq, hall⟩ := find?_first _ _ _ hn
    simp only [Bool.and_eq_true] at pa
    refine ⟨pa.1, pa.2, l1, l2, heq, ?_⟩
    intro m hm hcontra
    have hf := hall m hm
    rw [hcontra.1, hcontra.2] at hf
    simp at hf
  · rw [detectAuthorFromQuery, detectGo_eq_find, List.find?_eq_none]
    constructor
    · intro h n hn hcontra
      have := h n hn
      simp only [Bool.and_eq_true] at this
      exact this ⟨hcontra.1, hcontra.2⟩
    · intro h n hn
      simp only [Bool.and_eq_true]
      intro hcontra
      exact h n hn ⟨hcontra.1, hcontra.2⟩

/-- Witness for `c9_detect_author`: over the strict-mode corpus the query
`GIVE ME KUCZYNSKI QUOTES` detects `Kuczynski` (the verified first hit),
while over the Scenario B corpus — where Kuczynski rows sit only in the
private pool — the same textual match fails verification and the result
is `none`. -/
theorem c9_detect_author_witness :
    detectAuthorFromQuery strictRows "GIVE ME KUCZYNSKI QUOTES" = some "Kuczynski" ∧
    authorHasChunks strictRows "Kuczynski" = true ∧
    detectAuthorFromQuery dualRows "GIVE ME KUCZYNSKI QUOTES" = none :=
  ⟨by decide,
   ((c9_detect_author strictRows "GIVE ME KUCZYNSKI QUOTES").1 "Kuczynski"
     (by decide)).2.1,
   by decide⟩

/-! ### C5: Scenario A -/

/-- The Scenario A passage. -/
def scenarioAPassage : StructuredChunk :=
  ⟨"James", "Principles of Psychology",
   "The mind is a battlefield where will and desire contend. See Chapter 9.2 for details. This was shown by the experiment of 1921 (Smith, 1921).",
   3, 0, "common", "common", 33⟩

/-- C5: evaluating `extractQuotes` at the Scenario A passage and query.
The claim (quoting the specification) expects exactly one quote, with the
trailing-citation sentence rejected; the code in fact returns TWO quotes,
because `isCitationFragment` misses
`"This was shown by the experiment of 1921 (Smith, 1921)."`: the inline
pattern `\(\d{4}\)` does not cover an author-comma-year citation, and the
trailing pattern `\(\s*[A-Z][a-z]+,?\s*\d{4}[),\s]*$` — whose own comment
says it should reject sentences that end `(Author, 1865) or similar` —
requires the citation to reach the end of the string, while every
sentence that has survived `isCompleteSentence` necessarily ends in `.`,
`!` or `?` (optionally a closing quote), characters outside `[),\s]`.
The pattern is therefore unsatisfiable after the completeness filter, the
citation sentence passes every filter, and the result has length 2. -/
theorem c5_scenario_a_two_quotes :
    extractQuotes [scenarioAPassage] "mind battlefield" 50 50 =
      [ ⟨"The mind is a battlefield where will and desire contend.".data,
         "Principles of Psychology", 3, 18⟩
      , ⟨"This was shown by the experiment of 1921 (Smith, 1921).".data,
         "Principles of Psychology", 3, -5⟩ ] ∧
    (extractQuotes [scenarioAPassage] "mind battlefield" 50 50).length ≠ 1 ∧
    isCompleteSentence
      "This was shown by the experiment of 1921 (Smith, 1921).".data = true ∧
    isCitationFragment
      "This was shown by the experiment of 1921 (Smith, 1921).".data = false := by
  refine ⟨by decide, by decide, by decide, by decide⟩

/-! ### C7: idempotence of author-name normalisation -/

theorem jsToLower_fix (c : Char) : jsToLower (jsToLower c) = jsToLower c := by
  unfold jsToLower
  by_cases h : 65 ≤ c.toNat ∧ c.toNat ≤ 90
  · rw [if_pos h]
    have ht : (Char.ofNat (c.toNat + 32)).toNat = c.toNat + 32 :=
      toNatOfNatSmall _ (by omega)
    rw [if_neg (by omega)]
  · rw [if_neg h, if_neg h]

theorem jsToLower_jsToUpper_fix (c : Char) (h : jsToLower c = c) :
    jsToLower (jsToUpper c) = c := by
  unfold jsToUpper
  by_cases h2 : 97 ≤ c.toNat ∧ c.toNat ≤ 122
  · rw [if_pos h2]
    unfold jsToLower
    have ht : (Char.ofNat (c.toNat - 32)).toNat = c.toNat - 32 :=
      toNatOfNatSmall _ (by omega)
    rw [if_pos (by omega), ht]
    have : c.toNat - 32 + 32 = c.toNat := by omega
    rw [this, Char.ofNat_toNat]
  · rw [if_neg h2, h]

/-- Fields produced by `split(/[\s-]+/)` contain no separator characters
and only characters of the input. -/
theorem jsSplitSep_tokens : ∀ (l : List Char), ∀ w ∈ jsSplitSep l,
    ∀ c ∈ w, isSepWsHyph c = false ∧ c ∈ l := by
  intro l
  induction l using jsSplitSep.induct with
  | case1 =>
    intro w hw c hc
    simp only [jsSplitSep, List.mem_singleton] at hw
    subst hw
    cases hc
  | case2 d hd =>
    intro w hw c hc
    simp only [jsSplitSep, hd] at hw
    simp only [if_pos, List.mem_cons, List.mem_singleton, List.not_mem_nil] at hw
    rcases hw with rfl | rfl | hw2
    · cases hc
    · cases hc
    · cases hw2
  | case3 d1 hd1 d t hd ih =>
    intro w hw c hc
    rw [show jsSplitSep (d1 :: d :: t) = jsSplitSep (d :: t) by
      simp [jsSplitSep, hd1, hd]] at hw
    have h2 := ih w hw c hc
    exact ⟨h2.1, List.mem_cons_of_mem _ h2.2⟩
  | case4 d1 hd1 d t hd ih =>
    intro w hw c hc
    rw [show jsSplitSep (d1 :: d :: t) = [] :: jsSplitSep (d :: t) by
      simp [jsSplitSep, hd1, hd]] at hw
    rcases List.mem_cons.mp hw with rfl | hw2
    · cases hc
    · have h2 := ih w hw2 c hc
      exact ⟨h2.1, List.mem_cons_of_mem _ h2.2⟩
  | case5 d t hd hnil ih =>
    intro w hw c hc
    rw [show jsSplitSep (d :: t) = [[d]] by simp [jsSplitSep, hd, hnil]] at hw
    rcases List.mem_singleton.mp hw with rfl
    rcases List.mem_singleton.mp hc with rfl
    exact ⟨by simpa using hd, List.mem_cons_self _ _⟩
  | case6 d t hd f fs hf ih =>
    intro w hw c hc
    rw [show jsSplitSep (d :: t) = (d :: f) :: fs by simp [jsSplitSep, hd, hf]] at hw
    rcases List.mem_cons.mp hw with rfl | hw2
    · rcases List.mem_cons.mp hc with rfl | hc2
      · exact ⟨by simpa using hd, List.mem_cons_self _ _⟩
      · have h2 := ih f (by rw [hf]; exact List.mem_cons_self _ _) c hc2
        exact ⟨h2.1, List.mem_cons_of_mem _ h2.2⟩
    · have h2 := ih w (by rw [hf]; exact List.mem_cons_of_mem _ hw2) c hc
      exact ⟨h2.1, List.mem_cons_of_mem _ h2.2⟩

/-- A nonempty separator-free string splits into the single field
consisting of itself. -/
theorem jsSplitSep_of_no_sep (l : List Char) (hne : l ≠ [])
    (h : ∀ c ∈ l, isSepWsHyph c = false) : jsSplitSep l = [l] := by
  induction l with
  | nil => exact absurd rfl hne
  | cons c cs ih =>
    have hc : isSepWsHyph c = false := h c (List.mem_cons_self _ _)
    cases cs with
    | nil => simp [jsSplitSep, hc]
    | cons d t =>
      have ih2 := ih (by simp) (fun x hx => h x (List.mem_cons_of_mem _ hx))
      have hstep : jsSplitSep (c :: d :: t) =
          (match jsSplitSep (d :: t) with
           | [] => [[c]]
           | f :: fs => (c :: f) :: fs) := by
        conv_lhs => rw [jsSplitSep.eq_def]
        simp [hc]
      rw [hstep, ih2]

/-- Characters of the trimmed string are characters of the string. -/
theorem mem_trimL (l : List Char) (c : Char) (h : c ∈ trimL l) : c ∈ l := by
  unfold trimL at h
  exact (List.dropWhile_sublist isWS).mem ((List.rdropWhile_prefix _ _).sublist.mem h)

/-- A string without whitespace is already trimmed. -/
theorem trimL_of_no_ws (l : List Char) (h : ∀ c ∈ l, isWS c = false) :
    trimL l = l := by
  unfold trimL
  have h1 : l.dropWhile isWS = l := by
    cases l with
    | nil => rfl
    | cons c cs => exact List.dropWhile_cons_of_neg (by simp [h c (List.mem_cons_self _ _)])
  rw [h1]
  rw [List.rdropWhile_eq_self_iff]
  intro hl hp
  have := h _ (List.getLast_mem hl)
  simp [this] at hp

/-- Every lowercased string is fixed by further lowercasing,
characterwise. -/
theorem toLowerL_stable (l : List Char) (c : Char) (h : c ∈ toLowerL l) :
    jsToLower c = c := by
  obtain ⟨d, _, hd⟩ := List.mem_map.mp h
  rw [← hd]
  exact jsToLower_fix d

/-- Shape of a successful alias lookup. -/
theorem aliasFind_some (t : List (String × String)) (k : List Char) (v : String)
    (h : aliasFind t k = some v) : ∃ p ∈ t, p.1.data = k ∧ p.2 = v := by
  induction t with
  | nil => cases h
  | cons p ps ih =>
    unfold aliasFind at h
    by_cases hp : p.1.data = k
    · rw [if_pos hp] at h
      cases h
      exact ⟨p, List.mem_cons_self _ _, hp, rfl⟩
    · rw [if_neg hp] at h
      obtain ⟨q, hq, hqk, hqv⟩ := ih h
      exact ⟨q, List.mem_cons_of_mem _ hq, hqk, hqv⟩

/-- Every key of the alias table contains a space. -/
theorem aliasKeysHaveSpace :
    AUTHOR_ALIASES.all (fun p => p.1.data.contains ' ') = true := by decide

/-- Every canonical value of the alias table is a fixed point of
`normalizeAuthorName`. -/
theorem aliasValuesFixed :
    AUTHOR_ALIASES.all (fun p => normalizeAuthorName p.2 == p.2) = true := by decide


/-- Unfolding of `normalizeAuthorName` on nonempty input. -/
theorem normalizeAuthorName_eq (x : String) (hx : x ≠ "") :
    normalizeAuthorName x =
      (match aliasFind AUTHOR_ALIASES (trimL (toLowerL x.data)) with
       | some canonical => canonical
       | none =>
         match ((jsSplitSep (trimL (toLowerL x.data))).filter
             (fun w => 2 < w.length)).getLast? with
         | some lastName => String.mk (capitalizeHead lastName)
         | none => x) := by
  unfold normalizeAuthorName
  rw [if_neg hx]

/-- Uppercasing never produces a separator character. -/
theorem isSepWsHyph_jsToUpper (c : Char) (h : isSepWsHyph c = false) :
    isSepWsHyph (jsToUpper c) = false := by
  unfold jsToUpper
  by_cases h2 : 97 ≤ c.toNat ∧ c.toNat ≤ 122
  · rw [if_pos h2]
    have ht : (Char.ofNat (c.toNat - 32)).toNat = c.toNat - 32 :=
      toNatOfNatSmall _ (by omega)
    unfold isSepWsHyph isWS
    rw [ht]
    simp only [Bool.or_eq_false_iff, decide_eq_false_iff_not]
    omega
  · rw [if_neg h2]
    exact h

/-- The fallback output of `normalizeAuthorName` — the capitalised last
significant token — is itself a fixed point of `normalizeAuthorName`. -/
theorem fallback_fixpoint (w : List Char) (hne : w ≠ [])
    (hsep : ∀ c ∈ w, isSepWsHyph c = false)
    (hlow : ∀ c ∈ w, jsToLower c = c)
    (hlen : 2 < w.length) :
    normalizeAuthorName (String.mk (capitalizeHead w)) = String.mk (capitalizeHead w) := by
  obtain ⟨w0, wt, rfl⟩ : ∃ w0 wt, w = w0 :: wt := by
    cases w with
    | nil => exact absurd rfl hne
    | cons a b => exact ⟨a, b, rfl⟩
  have hdata : (String.mk (capitalizeHead (w0 :: wt))).data = jsToUpper w0 :: wt := rfl
  have hnempty : String.mk (capitalizeHead (w0 :: wt)) ≠ "" := by
    intro hcontra
    have h2 : (String.mk (capitalizeHead (w0 :: wt))).data = "".data := by rw [hcontra]
    rw [hdata] at h2
    cases h2
  have hnows : ∀ c ∈ (w0 :: wt), isWS c = false := by
    intro c hc
    have h3 := hsep c hc
    unfold isSepWsHyph at h3
    simp only [Bool.or_eq_false_iff] at h3
    exact h3.1
  have hnorm : trimL (toLowerL (String.mk (capitalizeHead (w0 :: wt))).data) = w0 :: wt := by
    rw [hdata]
    have hlowall : toLowerL (jsToUpper w0 :: wt) = w0 :: wt := by
      unfold toLowerL
      rw [List.map_cons, jsToLower_jsToUpper_fix w0 (hlow w0 (List.mem_cons_self _ _))]
      congr 1
      calc List.map jsToLower wt
          = List.map id wt :=
            List.map_congr_left (fun c hc => hlow c (List.mem_cons_of_mem _ hc))
        _ = wt := List.map_id wt
    rw [hlowall, trimL_of_no_ws _ hnows]
  have halias : aliasFind AUTHOR_ALIASES (w0 :: wt) = none := by
    rcases hfind : aliasFind AUTHOR_ALIASES (w0 :: wt) with _ | v
    · rfl
    · obtain ⟨p, hp, hpk, _⟩ := aliasFind_some _ _ _ hfind
      have hspace := List.all_eq_true.mp aliasKeysHaveSpace p hp
      rw [hpk] at hspace
      obtain ⟨c, hc, hceq⟩ := List.contains_iff_exists_mem_beq.mp hspace
      have hcsp : (' ' : Char) = c := eq_of_beq hceq
      have h4 := hsep c hc
      rw [← hcsp] at h4
      cases h4
  have hsplit : jsSplitSep (w0 :: wt) = [w0 :: wt] :=
    jsSplitSep_of_no_sep _ (by simp) hsep
  rw [normalizeAuthorName_eq _ hnempty, hnorm, halias, hsplit]
  have hfilter : List.filter (fun w => decide (2 < w.length)) [w0 :: wt] = [w0 :: wt] := by
    simp only [List.filter]
    rw [decide_eq_true (by simpa using hlen)]
  rw [hfilter]
  rfl

/-- C7: `normalizeAuthorName` is idempotent on every input, and resolves
both `john-michael kuczynski` (via the alias table) and `Kuczynski` (via
the last-significant-token fallback) to the canonical `Kuczynski`. -/
theorem c7_normalize_idempotent :
    (∀ x : String, normalizeAuthorName (normalizeAuthorName x) = normalizeAuthorName x) ∧
    normalizeAuthorName "john-michael kuczynski" = "Kuczynski" ∧
    normalizeAuthorName "Kuczynski" = "Kuczynski" := by
  refine ⟨?_, by decide, by decide⟩
  intro x
  by_cases hx : x = ""
  · subst hx
    rfl
  rw [normalizeAuthorName_eq x hx]
  rcases ha : aliasFind AUTHOR_ALIASES (trimL (toLowerL x.data)) with _ | v
  · rcases hw : ((jsSplitSep (trimL (toLowerL x.data))).filter
        (fun w => 2 < w.length)).getLast? with _ | w
    · -- no significant token: the input is returned unchanged, and the
      -- outer application repeats the same computation
      rw [hw]
      show normalizeAuthorName x = x
      rw [normalizeAuthorName_eq x hx, ha, hw]
    · -- fallback: the capitalised last token is a fixed point
      rw [hw]
      show normalizeAuthorName (String.mk (capitalizeHead w)) = String.mk (capitalizeHead w)
      have hmem := List.mem_of_getLast?_eq_some hw
      have hfil := List.mem_filter.mp hmem
      have htok := jsSplitSep_tokens _ w hfil.1
      have hlen : 2 < w.length := by simpa using hfil.2
      have hne : w ≠ [] := by
        intro hc
        rw [hc] at hlen
        simp at hlen
      refine fallback_fixpoint w hne ?_ ?_ hlen
      · exact fun c hc => (htok c hc).1
      · intro c hc
        exact toLowerL_stable x.data c (mem_trimL _ _ ((htok c hc).2))
  · -- alias hit: canonical values are fixed points
    show normalizeAuthorName v = v
    obtain ⟨p, hp, _, hpv⟩ := aliasFind_some _ _ _ ha
    have hfix := List.all_eq_true.mp aliasValuesFixed p hp
    rw [← hpv]
    exact eq_of_beq (by simpa using hfix)

/-! ### Structure of the word-replacement pass -/

theorem fixTok_nil : fixTok [] = [] := rfl

/-- Replacement outputs of the substitution table are nonempty and free
of whitespace characters. -/
theorem wordTable_outputs :
    wordTable.all (fun pr => !pr.2.isEmpty && pr.2.all (fun c => !isWS c)) = true := by
  decide

/-- Keys of the substitution table are nonempty. -/
theorem wordTable_keys_ne_nil :
    wordTable.all (fun pr => !pr.1.isEmpty) = true := by decide

theorem tableFind_some (t : List (List Char × List Char)) (k r : List Char)
    (h : tableFind t k = some r) : ∃ pr ∈ t, pr.1 = k ∧ pr.2 = r := by
  induction t with
  | nil => cases h
  | cons p ps ih =>
    unfold tableFind at h
    by_cases hp : p.1 = k
    · rw [if_pos hp] at h
      cases h
      exact ⟨p, List.mem_cons_self _ _, hp, rfl⟩
    · rw [if_neg hp] at h
      obtain ⟨q, hq, hqk, hqr⟩ := ih h
      exact ⟨q, List.mem_cons_of_mem _ hq, hqk, hqr⟩

/-- Characters of `fixTok w` are free of whitespace whenever those of `w`
are. -/
theorem fixTok_no_ws (w : List Char) (hw : ∀ c ∈ w, isWS c = false) :
    ∀ c ∈ fixTok w, isWS c = false := by
  unfold fixTok
  rcases hf : tableFind wordTable (toLowerL w) with _ | r
  · exact hw
  · obtain ⟨pr, hpr, _, hpr2⟩ := tableFind_some _ _ _ hf
    have h2 := List.all_eq_true.mp wordTable_outputs pr hpr
    simp only [Bool.and_eq_true, List.all_eq_true] at h2
    intro c hc
    have := h2.2 c (by rw [hpr2]; exact hc)
    simpa using this

/-- `fixTok` maps nonempty tokens to nonempty strings. -/
theorem fixTok_ne_nil (w : List Char) (hw : w ≠ []) : fixTok w ≠ [] := by
  unfold fixTok
  rcases hf : tableFind wordTable (toLowerL w) with _ | r
  · exact hw
  · obtain ⟨pr, hpr, _, hpr2⟩ := tableFind_some _ _ _ hf
    have h2 := List.all_eq_true.mp wordTable_outputs pr hpr
    simp only [Bool.and_eq_true] at h2
    have h3 : pr.2 ≠ [] := by
      intro hx
      rw [hx] at h2
      simp at h2
    rw [hpr2] at h3
    exact h3

/-- Splitting the accumulator scan of `fixWords` at a non-word
character. -/
theorem fixWordsAux_append_sep (c : Char) (hc : isWordChar c = false)
    (ys : List Char) :
    ∀ (xs acc : List Char),
      fixWordsAux acc (xs ++ c :: ys) =
        fixWordsAux acc xs ++ c :: fixWordsAux [] ys := by
  intro xs
  induction xs with
  | nil =>
    intro acc
    simp only [List.nil_append, fixWordsAux, hc, Bool.false_eq_true, if_false]
  | cons a as ih =>
    intro acc
    by_cases ha : isWordChar a = true
    · simp only [List.cons_append, fixWordsAux, ha, if_true]
      exact ih (a :: acc)
    · simp only [List.cons_append, fixWordsAux, ha, Bool.false_eq_true, if_false,
        List.append_assoc, List.cons_append, List.append_eq]
      rw [ih []]

/-- `fixWords` distributes over a non-word character. -/
theorem fixWords_append_sep (c : Char) (hc : isWordChar c = false)
    (xs ys : List Char) :
    fixWords (xs ++ c :: ys) = fixWords xs ++ c :: fixWords ys :=
  fixWordsAux_append_sep c hc ys xs []

theorem fixWords_nil : fixWords [] = [] := rfl

theorem fixWords_cons_neg (c : Char) (hc : isWordChar c = false)
    (cs : List Char) : fixWords (c :: cs) = c :: fixWords cs := by
  have := fixWords_append_sep c hc [] cs
  simpa using this

/-- The accumulator scan in terms of `takeWhile`/`dropWhile`. -/
theorem fixWordsAux_eq (l : List Char) :
    ∀ acc, fixWordsAux acc l =
      fixTok (acc.reverse ++ l.takeWhile isWordChar) ++
        (match l.dropWhile isWordChar with
         | [] => []
         | c :: cs => c :: fixWordsAux [] cs) := by
  induction l with
  | nil =>
    intro acc
    simp [fixWordsAux]
  | cons c cs ih =>
    intro acc
    by_cases hc : isWordChar c = true
    · simp only [fixWordsAux, hc, if_true, List.takeWhile_cons_of_pos,
        List.dropWhile_cons_of_pos]
      rw [ih (c :: acc)]
      simp
    · simp only [fixWordsAux, hc, Bool.false_eq_true, if_false,
        List.takeWhile_cons_of_neg, List.dropWhile_cons_of_neg]
      simp [hc]

/-- Head of `dropWhile` fails the predicate. -/
theorem dropWhile_head_not (p : Char → Bool) (l : List Char) (c : Char)
    (cs : List Char) (h : l.dropWhile p = c :: cs) : p c = false := by
  induction l with
  | nil => cases h
  | cons a as ih =>
    by_cases ha : p a = true
    · rw [List.dropWhile_cons_of_pos ha] at h
      exact ih h
    · rw [List.dropWhile_cons_of_neg ha] at h
      cases h
      simpa using ha

/-- The defining equation of `fixWords` on a leading word character. -/
theorem fixWords_cons_word (c : Char) (hc : isWordChar c = true)
    (cs : List Char) :
    fixWords (c :: cs) =
      fixTok ((c :: cs).takeWhile isWordChar) ++
        fixWords ((c :: cs).dropWhile isWordChar) := by
  unfold fixWords
  rw [fixWordsAux_eq]
  simp only [List.reverse_nil, List.nil_append]
  congr 1
  rcases hd : (c :: cs).dropWhile isWordChar with _ | ⟨d, ds⟩
  · rfl
  · have hdw := dropWhile_head_not _ _ _ _ hd
    show d :: fixWordsAux [] ds = fixWordsAux [] (d :: ds)
    rw [show fixWordsAux [] (d :: ds) = fixWords (d :: ds) from rfl,
      fixWords_cons_neg d hdw ds]
    rfl

/-! ### C10: the contraction substitutions -/

theorem leadsWith_iff (n h : List Char) :
    leadsWith n h = true ↔ ∃ q, h = n ++ q := by
  induction n generalizing h with
  | nil => simp [leadsWith]
  | cons a n ih =>
    cases h with
    | nil =>
      simp only [leadsWith]
      constructor
      · intro hc
        cases hc
      · rintro ⟨q, hq⟩
        cases hq
    | cons b h2 =>
      simp only [leadsWith, Bool.and_eq_true, decide_eq_true_eq, ih]
      constructor
      · rintro ⟨rfl, q, rfl⟩
        exact ⟨q, rfl⟩
      · rintro ⟨q, hq⟩
        cases hq
        exact ⟨rfl, q, rfl⟩

theorem containsSeg_iff_SubSeg (h n : List Char) :
    containsSeg h n = true ↔ SubSeg n h := by
  unfold containsSeg SubSeg
  rw [List.any_eq_true]
  constructor
  · rintro ⟨t, ht, hlw⟩
    obtain ⟨p, hp⟩ := (List.mem_tails _ _).mp ht
    obtain ⟨q, rfl⟩ := (leadsWith_iff n t).mp hlw
    exact ⟨p, q, by rw [← hp, List.append_assoc]⟩
  · rintro ⟨p, q, rfl⟩
    refine ⟨n ++ q, (List.mem_tails _ _).mpr ⟨p, by rw [List.append_assoc]⟩, ?_⟩
    exact (leadsWith_iff n (n ++ q)).mpr ⟨q, rfl⟩

/-- `takeWhile`/`dropWhile` on a list all of whose characters satisfy the
predicate. -/
theorem takeWhile_all_eq (p : Char → Bool) (l : List Char)
    (h : ∀ c ∈ l, p c = true) :
    l.takeWhile p = l ∧ l.dropWhile p = [] := by
  induction l with
  | nil => exact ⟨rfl, rfl⟩
  | cons c cs ih =>
    have hc := h c (List.mem_cons_self _ _)
    obtain ⟨h1, h2⟩ := ih (fun d hd => h d (List.mem_cons_of_mem _ hd))
    rw [List.takeWhile_cons_of_pos hc, List.dropWhile_cons_of_pos hc, h1, h2]
    exact ⟨rfl, rfl⟩

/-- `fixWords` on a single maximal word token is `fixTok`. -/
theorem fixWords_token (w : List Char) (hne : w ≠ [])
    (hw : ∀ c ∈ w, isWordChar c = true) : fixWords w = fixTok w := by
  obtain ⟨c, cs, rfl⟩ : ∃ c cs, w = c :: cs := by
    cases w with
    | nil => exact absurd rfl hne
    | cons a b => exact ⟨a, b, rfl⟩
  obtain ⟨h1, h2⟩ := takeWhile_all_eq isWordChar _ hw
  rw [fixWords_cons_word c (hw c (List.mem_cons_self _ _)) cs, h1, h2, fixWords_nil,
    List.append_nil]

/-- Lowercasing reflects word characters. -/
theorem isWordChar_of_toLower (c : Char) (h : isWordChar (jsToLower c) = true) :
    isWordChar c = true := by
  unfold jsToLower at h
  by_cases h2 : 65 ≤ c.toNat ∧ c.toNat ≤ 90
  · unfold isWordChar
    simp only [Bool.or_eq_true, Bool.and_eq_true, decide_eq_true_eq]
    omega
  · rwa [if_neg h2] at h

/-- The contraction rows of the substitution table
(`generate-poincare-complete.ts` 1486-1498): un-apostrophised forms and
their apostrophised replacements. -/
def contractionPairs : List (List Char × List Char) :=
  [ ("dont".data, "don".data ++ apos :: "t".data)
  , ("cant".data, "can".data ++ apos :: "t".data)
  , ("wont".data, "won".data ++ apos :: "t".data)
  , ("doesnt".data, "doesn".data ++ apos :: "t".data)
  , ("isnt".data, "isn".data ++ apos :: "t".data)
  , ("arent".data, "aren".data ++ apos :: "t".data)
  , ("werent".data, "weren".data ++ apos :: "t".data)
  , ("wasnt".data, "wasn".data ++ apos :: "t".data)
  , ("hasnt".data, "hasn".data ++ apos :: "t".data)
  , ("havent".data, "haven".data ++ apos :: "t".data)
  , ("shouldnt".data, "shouldn".data ++ apos :: "t".data)
  , ("wouldnt".data, "wouldn".data ++ apos :: "t".data)
  , ("couldnt".data, "couldn".data ++ apos :: "t".data) ]

/-- Every contraction key resolves in the substitution table to its
apostrophised replacement, is nonempty, and consists of word
characters. -/
theorem contractionPairs_lookup :
    contractionPairs.all (fun pr =>
      tableFind wordTable pr.1 == some pr.2 && !pr.1.isEmpty &&
      pr.1.all isWordChar) = true := by decide

/-- C10, general part: the contraction substitutions apply purely by word
shape.  Whenever a standalone occurrence of an un-apostrophised form
(`dont`, `cant`, `wont`, `isnt`, ..., in any letter case) sits between
word boundaries, the word-replacement pass rewrites it to the
apostrophised contraction — there is no surrounding-context check, so the
legitimate English nouns `cant` and `wont` are rewritten too.  Combined
with the end-to-end evaluation below (`extractQuotes` on a passage
containing `wont` and `cant` returns a quote with `won't`/`can't` that is
not a substring of the stored source text). -/
theorem c10_contractions_by_word_shape :
    (∀ (key rep w p q : List Char),
      (key, rep) ∈ contractionPairs →
      toLowerL w = key →
      (p = [] ∨ ∃ d p2, p = p2 ++ [d] ∧ isWordChar d = false) →
      (q = [] ∨ ∃ e q2, q = e :: q2 ∧ isWordChar e = false) →
      fixWords (p ++ w ++ q) = fixWords p ++ rep ++ fixWords q) ∧
    extractQuotes [sagePassage] "" 50 50 = [sageQuote] ∧
    containsSeg sagePassage.content.data "wont".data = true ∧
    containsSeg sagePassage.content.data "cant".data = true ∧
    ¬ SubSeg sageQuote.quote sagePassage.content.data := by
  have hgen : ∀ (key rep w p q : List Char),
      (key, rep) ∈ contractionPairs →
      toLowerL w = key →
      (p = [] ∨ ∃ d p2, p = p2 ++ [d] ∧ isWordChar d = false) →
      (q = [] ∨ ∃ e q2, q = e :: q2 ∧ isWordChar e = false) →
      fixWords (p ++ w ++ q) = fixWords p ++ rep ++ fixWords q := by
    intro key rep w p q hpr hkey hp hq
    have hlook := List.all_eq_true.mp contractionPairs_lookup _ hpr
    simp only [Bool.and_eq_true, beq_iff_eq, List.all_eq_true] at hlook
    have htok : fixTok w = rep := by
      unfold fixTok
      rw [hkey, hlook.1.1]
    have hwword : ∀ c ∈ w, isWordChar c = true := by
      intro c hc
      refine isWordChar_of_toLower c (hlook.2 (jsToLower c) ?_)
      rw [← hkey]
      exact List.mem_map.mpr ⟨c, hc, rfl⟩
    have hwne : w ≠ [] := by
      intro hw0
      rw [hw0] at hkey
      have := hlook.1.2
      rw [← hkey] at this
      simp [toLowerL] at this
    have hmid : fixWords (w ++ q) = rep ++ fixWords q := by
      rcases hq with rfl | ⟨e, q2, rfl, he⟩
      · rw [List.append_nil, fixWords_token w hwne hwword, htok, fixWords_nil,
          List.append_nil]
      · rw [fixWords_append_sep e he w q2, fixWords_token w hwne hwword, htok,
          fixWords_cons_neg e he]
    rcases hp with rfl | ⟨d, p2, rfl, hd⟩
    · simpa using hmid
    · have h1 : p2 ++ [d] ++ w ++ q = p2 ++ d :: (w ++ q) := by simp
      have h2 : fixWords (p2 ++ [d]) = fixWords p2 ++ [d] := by
        have := fixWords_append_sep d hd p2 []
        simpa using this
      rw [h1, fixWords_append_sep d hd p2 (w ++ q), hmid, h2]
      simp
  refine ⟨hgen, by decide, by decide, by decide, ?_⟩
  intro hsub
  have := (containsSeg_iff_SubSeg sagePassage.content.data sageQuote.quote).mpr hsub
  have hfalse : containsSeg sagePassage.content.data sageQuote.quote = false := by decide
  rw [hfalse] at this
  cases this

/-- Witness for `c10_contractions_by_word_shape`: the standalone noun
`cant` surrounded by spaces is rewritten to `can't`. -/
theorem c10_contractions_witness :
    fixWords ("no ".data ++ "cant".data ++ " here".data) =
      fixWords "no ".data ++ ("can".data ++ apos :: "t".data) ++ fixWords " here".data :=
  c10_contractions_by_word_shape.1 "cant".data ("can".data ++ apos :: "t".data)
    "cant".data "no ".data " here".data (by decide) (by decide)
    (Or.inr ⟨' ', "no".data, by decide, by decide⟩)
    (Or.inr ⟨' ', "here".data, rfl, by decide⟩)

/-! ### C1: extracted quotes are verbatim substrings of the corrected content -/

/-- Word characters are not whitespace. -/
theorem isWordChar_not_ws (c : Char) (h : isWordChar c = true) : isWS c = false := by
  rcases hb : isWS c with _ | _
  · rfl
  · exfalso
    unfold isWordChar at h
    unfold isWS at hb
    simp only [Bool.or_eq_true, Bool.and_eq_true, decide_eq_true_eq] at h hb
    omega

/-- Whitespace characters are not word characters. -/
theorem isWS_not_word (c : Char) (h : isWS c = true) : isWordChar c = false := by
  rcases hb : isWordChar c with _ | _
  · rfl
  · rw [isWordChar_not_ws c hb] at h
    simp at h

/-- Terminal characters are not word characters. -/
theorem isTerminal_not_word (c : Char) (h : isTerminal c = true) :
    isWordChar c = false := by
  rcases hb : isWordChar c with _ | _
  · rfl
  · exfalso
    unfold isTerminal at h
    unfold isWordChar at hb
    simp only [Bool.or_eq_true, Bool.and_eq_true, decide_eq_true_eq] at h hb
    omega

/-- Whitespace characters are not punctuation. -/
theorem isWS_not_punct (c : Char) (h : isWS c = true) : isPunctCh c = false := by
  rcases hb : isPunctCh c with _ | _
  · rfl
  · exfalso
    unfold isWS at h
    unfold isPunctCh at hb
    simp only [Bool.or_eq_true, decide_eq_true_eq] at h hb
    omega

/-- `dropWhile` runs past an all-whitespace prefix. -/
theorem dropWhile_ws_allws_append (A X : List Char) (hA : ∀ c ∈ A, isWS c = true) :
    (A ++ X).dropWhile isWS = X.dropWhile isWS := by
  induction A with
  | nil => rfl
  | cons a as ih =>
    rw [List.cons_append, List.dropWhile_cons_of_pos (hA a (List.mem_cons_self _ _))]
    exact ih fun c hc => hA c (List.mem_cons_of_mem _ hc)

/-- `dropWhile` stops at a non-whitespace head of the appended suffix. -/
theorem dropWhile_ws_append_headnw (xs Z : List Char)
    (hZ : ∀ d, Z.head? = some d → isWS d = false) :
    (xs ++ Z).dropWhile isWS = xs.dropWhile isWS ++ Z := by
  induction xs with
  | nil =>
    cases Z with
    | nil => rfl
    | cons d ds =>
      simp only [List.nil_append, List.dropWhile_nil]
      rw [List.dropWhile_cons_of_neg (by simp [hZ d rfl])]
  | cons a as ih =>
    rcases ha : isWS a with _ | _
    · rw [List.cons_append, List.dropWhile_cons_of_neg (by simp [ha]),
        List.dropWhile_cons_of_neg (by simp [ha]), List.cons_append]
    · rw [List.cons_append, List.dropWhile_cons_of_pos ha,
        List.dropWhile_cons_of_pos ha, ih]

/-- `dropWhile` distributes over an append when it stops inside the first
list. -/
theorem dropWhile_ws_append_left (xs ys : List Char)
    (h : xs.dropWhile isWS ≠ []) :
    (xs ++ ys).dropWhile isWS = xs.dropWhile isWS ++ ys := by
  induction xs with
  | nil => exact absurd rfl h
  | cons a as ih =>
    rcases ha : isWS a with _ | _
    · rw [List.cons_append, List.dropWhile_cons_of_neg (by simp [ha]),
        List.dropWhile_cons_of_neg (by simp [ha]), List.cons_append]
    · rw [List.dropWhile_cons_of_pos ha] at h
      rw [List.cons_append, List.dropWhile_cons_of_pos ha,
        List.dropWhile_cons_of_pos ha, ih h]

/-- `rdropWhile` ignores an all-whitespace appended suffix. -/
theorem rdropWhile_ws_append_allws (X B : List Char)
    (hB : ∀ c ∈ B, isWS c = true) :
    (X ++ B).rdropWhile isWS = X.rdropWhile isWS := by
  show ((X ++ B).reverse.dropWhile isWS).reverse = (X.reverse.dropWhile isWS).reverse
  rw [List.reverse_append, dropWhile_ws_allws_append _ _
    (fun c hc => hB c (List.mem_reverse.mp hc))]

/-- `rdropWhile` keeps a first list whose last character is not
whitespace. -/
theorem rdropWhile_ws_append_lastnw (Y B : List Char)
    (hY : ∀ d, Y.getLast? = some d → isWS d = false) :
    (Y ++ B).rdropWhile isWS = Y ++ B.rdropWhile isWS := by
  show ((Y ++ B).reverse.dropWhile isWS).reverse = _
  rw [List.reverse_append, dropWhile_ws_append_headnw _ _
    (fun d hd => hY d (by rwa [List.head?_reverse] at hd)),
    List.reverse_append, List.reverse_reverse]
  rfl

/-- The `rdropWhile`/`rtakeWhile` split of a list. -/
theorem rdropWhile_append_rtakeWhile (p : Char → Bool) (l : List Char) :
    l.rdropWhile p ++ l.rtakeWhile p = l := by
  show (l.reverse.dropWhile p).reverse ++ (l.reverse.takeWhile p).reverse = l
  rw [← List.reverse_append, List.takeWhile_append_dropWhile, List.reverse_reverse]

/-- Characters stripped on each side by `trimL` are whitespace: the trim
decomposition. -/
theorem trimL_decomp (l : List Char) :
    ∃ A B, l = A ++ trimL l ++ B ∧ (∀ c ∈ A, isWS c = true) ∧
      (∀ c ∈ B, isWS c = true) := by
  refine ⟨l.takeWhile isWS, (l.dropWhile isWS).rtakeWhile isWS, ?_, ?_, ?_⟩
  · conv_lhs => rw [← List.takeWhile_append_dropWhile isWS l]
    unfold trimL
    rw [List.append_assoc, rdropWhile_append_rtakeWhile]
  · exact fun c hc => List.mem_takeWhile_imp hc
  · exact fun c hc => List.mem_rtakeWhile_imp hc

/-- The head of a nonempty trimmed string is not whitespace. -/
theorem trimL_head_nw (l : List Char) (d : Char) (ds : List Char)
    (h : trimL l = d :: ds) : isWS d = false := by
  have hpre := List.rdropWhile_prefix isWS (l.dropWhile isWS)
  rw [show (l.dropWhile isWS).rdropWhile isWS = trimL l from rfl, h] at hpre
  obtain ⟨t, ht⟩ := hpre
  exact dropWhile_head_not isWS l d (ds ++ t) (by rw [← ht]; rfl)

/-- The last character of a nonempty trimmed string is not whitespace. -/
theorem trimL_last_nw (l : List Char) (d : Char)
    (h : (trimL l).getLast? = some d) : isWS d = false := by
  have hne : trimL l ≠ [] := by intro hx; rw [hx] at h; cases h
  have h2 : ¬ isWS ((trimL l).getLast hne) = true :=
    List.rdropWhile_last_not isWS (l.dropWhile isWS) hne
  have h3 : some ((trimL l).getLast hne) = some d := by
    rw [← List.getLast?_eq_getLast (trimL l) hne, h]
  have h4 : (trimL l).getLast hne = d := Option.some.inj h3
  rw [← h4]
  simpa using h2

/-- A string whose ends are not whitespace is unchanged by `trimL`. -/
theorem trimL_edges_id (l : List Char)
    (hh : ∀ d, l.head? = some d → isWS d = false)
    (hl : ∀ d, l.getLast? = some d → isWS d = false) : trimL l = l := by
  have h1 : l.dropWhile isWS = l := by
    cases l with
    | nil => rfl
    | cons c cs => rw [List.dropWhile_cons_of_neg (by simp [hh c rfl])]
  show (l.dropWhile isWS).rdropWhile isWS = l
  rw [h1, List.rdropWhile_eq_self_iff]
  intro hne
  have h5 := hl (l.getLast hne) (by rw [List.getLast?_eq_getLast l hne])
  simp [h5]

/-- All-whitespace pads around a list vanish under `trimL`. -/
theorem trimL_append_pads (A M B : List Char) (hA : ∀ c ∈ A, isWS c = true)
    (hB : ∀ c ∈ B, isWS c = true) : trimL (A ++ M ++ B) = trimL M := by
  unfold trimL
  rw [List.append_assoc, dropWhile_ws_allws_append A (M ++ B) hA]
  rcases hd : M.dropWhile isWS with _ | ⟨d, ds⟩
  · have hMall : ∀ c ∈ M, isWS c = true := List.dropWhile_eq_nil_iff.mp hd
    rw [show (M ++ B).dropWhile isWS = [] from List.dropWhile_eq_nil_iff.mpr
      (by intro x hx; rcases List.mem_append.mp hx with h1 | h1
          · exact hMall x h1
          · exact hB x h1)]
  · rw [dropWhile_ws_append_left M B (by rw [hd]; simp), hd,
      rdropWhile_ws_append_allws _ _ hB]

/-- All characters of a nonempty whitespace-free list, in concat form. -/
theorem exists_concat_nw (l : List Char) (hne : l ≠ [])
    (h : ∀ c ∈ l, isWS c = false) :
    ∃ P d, l = P ++ [d] ∧ isWS d = false := by
  refine ⟨l.dropLast, l.getLast hne, (List.dropLast_append_getLast hne).symm, ?_⟩
  exact h _ (List.getLast_mem hne)

/-- `SubSeg` through `trimL` for a segment with non-whitespace ends. -/
theorem subSeg_trimL (A Z B : List Char)
    (hh : ∀ d, Z.head? = some d → isWS d = false)
    (hl : ∀ d, Z.getLast? = some d → isWS d = false) :
    SubSeg Z (trimL (A ++ Z ++ B)) := by
  cases Z with
  | nil => exact ⟨trimL (A ++ [] ++ B), [], by simp⟩
  | cons z zs =>
    have hz : isWS z = false := hh z rfl
    have hZB : ∀ d, ((z :: zs) ++ B).head? = some d → isWS d = false := by
      intro d hd
      simp only [List.cons_append, List.head?_cons, Option.some.injEq] at hd
      rw [← hd]
      exact hz
    have hY : ∀ d, (A.dropWhile isWS ++ (z :: zs)).getLast? = some d →
        isWS d = false := by
      intro d hd
      rw [List.getLast?_append_of_ne_nil _ (by simp)] at hd
      exact hl d hd
    unfold trimL
    rw [show A ++ (z :: zs) ++ B = A ++ ((z :: zs) ++ B) from
        List.append_assoc _ _ _,
      dropWhile_ws_append_headnw A _ hZB,
      show A.dropWhile isWS ++ ((z :: zs) ++ B) =
        (A.dropWhile isWS ++ (z :: zs)) ++ B from (List.append_assoc _ _ _).symm,
      rdropWhile_ws_append_lastnw _ _ hY]
    exact ⟨A.dropWhile isWS, B.rdropWhile isWS, by rw [List.append_assoc]⟩

theorem collapseWs_nil : collapseWs [] = [] := rfl

/-- `collapseWs` copies a non-whitespace head. -/
theorem collapseWs_cons_neg (c : Char) (hc : isWS c = false) (cs : List Char) :
    collapseWs (c :: cs) = c :: collapseWs cs := by
  cases cs with
  | nil => simp [collapseWs, hc]
  | cons d t => simp [collapseWs, hc]

/-- `collapseWs` on a whitespace head: one space, then the collapse of
the remainder past its leading whitespace run. -/
theorem collapseWs_cons_ws (c : Char) (hc : isWS c = true) (cs : List Char) :
    collapseWs (c :: cs) = ' ' :: collapseWs (cs.dropWhile isWS) := by
  induction cs generalizing c with
  | nil => simp [collapseWs, hc]
  | cons d t ih =>
    rcases hd : isWS d with _ | _
    · rw [show collapseWs (c :: d :: t) = ' ' :: collapseWs (d :: t) by
        simp [collapseWs, hc, hd], List.dropWhile_cons_of_neg (by simp [hd])]
    · rw [show collapseWs (c :: d :: t) = collapseWs (d :: t) by
        simp [collapseWs, hc, hd], List.dropWhile_cons_of_pos hd, ih d hd]

/-- One whitespace character before a whitespace-free remainder emits a
single space. -/
theorem collapseWs_ws_emit (c : Char) (hc : isWS c = true) (X : List Char)
    (hX : ∀ d, X.head? = some d → isWS d = false) :
    collapseWs (c :: X) = ' ' :: collapseWs X := by
  rw [collapseWs_cons_ws c hc]
  congr 1
  cases X with
  | nil => rfl
  | cons d ds => rw [List.dropWhile_cons_of_neg (by simp [hX d rfl])]

/-- `collapseWs` is the identity on whitespace-free strings. -/
theorem collapseWs_no_ws (l : List Char) (h : ∀ c ∈ l, isWS c = false) :
    collapseWs l = l := by
  induction l with
  | nil => rfl
  | cons c cs ih =>
    rw [collapseWs_cons_neg c (h c (List.mem_cons_self _ _)),
      ih fun d hd => h d (List.mem_cons_of_mem _ hd)]

/-- `collapseWs` of a nonempty all-whitespace string is one space. -/
theorem collapseWs_all_ws (l : List Char) (hne : l ≠ [])
    (h : ∀ c ∈ l, isWS c = true) : collapseWs l = [' '] := by
  cases l with
  | nil => exact absurd rfl hne
  | cons c cs =>
    rw [collapseWs_cons_ws c (h c (List.mem_cons_self _ _)),
      show cs.dropWhile isWS = [] from List.dropWhile_eq_nil_iff.mpr
        (fun x hx => h x (List.mem_cons_of_mem _ hx))]
    rfl

/-- An all-whitespace run before a non-whitespace head collapses to one
space. -/
theorem collapseWs_allws_emit (run Z : List Char)
    (hrun : ∀ c ∈ run, isWS c = true) (hne : run ≠ [])
    (hZ : ∀ d, Z.head? = some d → isWS d = false) :
    collapseWs (run ++ Z) = ' ' :: collapseWs Z := by
  cases run with
  | nil => exact absurd rfl hne
  | cons r rs =>
    rw [List.cons_append, collapseWs_cons_ws r (hrun r (List.mem_cons_self _ _)),
      dropWhile_ws_allws_append rs Z
        (fun c hc => hrun c (List.mem_cons_of_mem _ hc))]
    congr 1
    cases Z with
    | nil => rfl
    | cons d ds => rw [List.dropWhile_cons_of_neg (by simp [hZ d rfl])]

/-- Left context collapses to some prefix of the collapsed whole. -/
theorem collapseWs_left_absorb : ∀ n (p : List Char), p.length ≤ n →
    ∀ Z : List Char, (∀ d, Z.head? = some d → isWS d = false) →
    ∃ A, collapseWs (p ++ Z) = A ++ collapseWs Z := by
  intro n
  induction n with
  | zero =>
    intro p hp Z _
    rw [List.length_eq_zero.mp (Nat.le_zero.mp hp)]
    exact ⟨[], rfl⟩
  | succ n ih =>
    intro p hp Z hZ
    cases p with
    | nil => exact ⟨[], rfl⟩
    | cons a as =>
      have has : as.length ≤ n := by simp only [List.length_cons] at hp; omega
      rcases ha : isWS a with _ | _
      · obtain ⟨A, hA⟩ := ih as has Z hZ
        refine ⟨a :: A, ?_⟩
        rw [List.cons_append, collapseWs_cons_neg a ha, hA, List.cons_append]
      · have hstep : (as ++ Z).dropWhile isWS = as.dropWhile isWS ++ Z :=
          dropWhile_ws_append_headnw as Z hZ
        obtain ⟨A, hA⟩ := ih (as.dropWhile isWS)
          (le_trans (lengthDropWhileLe _ _) has) Z hZ
        refine ⟨' ' :: A, ?_⟩
        rw [List.cons_append, collapseWs_cons_ws a ha, hstep, hA, List.cons_append]

/-- `collapseWs` splits at a non-whitespace last character of the first
list. -/
theorem collapseWs_right_split : ∀ n (xs : List Char), xs.length ≤ n →
    (∀ d, xs.getLast? = some d → isWS d = false) →
    ∀ ys : List Char, collapseWs (xs ++ ys) = collapseWs xs ++ collapseWs ys := by
  intro n
  induction n with
  | zero =>
    intro xs hxs _ ys
    rw [List.length_eq_zero.mp (Nat.le_zero.mp hxs)]
    rfl
  | succ n ih =>
    intro xs hxs hlast ys
    cases xs with
    | nil => rfl
    | cons a as =>
      have has : as.length ≤ n := by simp only [List.length_cons] at hxs; omega
      have hlastas : ∀ d, as.getLast? = some d → isWS d = false := by
        intro d hd
        apply hlast
        cases as with
        | nil => cases hd
        | cons b bs => rw [List.getLast?_cons_cons]; exact hd
      rcases ha : isWS a with _ | _
      · rw [List.cons_append, collapseWs_cons_neg a ha, ih as has hlastas ys,
          collapseWs_cons_neg a ha]
        rfl
      · have hne : as ≠ [] := by
          intro hx
          subst hx
          have h1 := hlast a (List.getLast?_singleton a)
          rw [ha] at h1
          exact Bool.noConfusion h1
        have hdne : as.dropWhile isWS ≠ [] := by
          intro hx
          have hall := List.dropWhile_eq_nil_iff.mp hx
          obtain ⟨d, hd⟩ : ∃ d, as.getLast? = some d := by
            cases as with
            | nil => exact absurd rfl hne
            | cons b bs =>
              exact ⟨(b :: bs).getLast (by simp), List.getLast?_eq_getLast _ _⟩
          have h1 := hlastas d hd
          have h2 : d ∈ as := List.mem_of_getLast?_eq_some hd
          rw [hall d h2] at h1
          exact Bool.noConfusion h1
        have hstep : (as ++ ys).dropWhile isWS = as.dropWhile isWS ++ ys :=
          dropWhile_ws_append_left as ys hdne
        obtain ⟨pre, hpre⟩ := List.dropWhile_suffix (l := as) isWS
        have hlastd : ∀ d, (as.dropWhile isWS).getLast? = some d →
            isWS d = false := by
          intro d hd
          apply hlastas
          rw [← hpre, List.getLast?_append_of_ne_nil _ hdne, hd]
        rw [List.cons_append, collapseWs_cons_ws a ha, hstep,
          ih _ (le_trans (lengthDropWhileLe _ _) has) hlastd ys,
          collapseWs_cons_ws a ha]
        rfl

/-- `collapseWs` preserves a non-whitespace final character. -/
theorem collapseWs_concat_nw : ∀ n (l : List Char), l.length ≤ n →
    ∀ e : Char, isWS e = false → ∃ P, collapseWs (l ++ [e]) = P ++ [e] := by
  intro n
  induction n with
  | zero =>
    intro l hl e he
    rw [List.length_eq_zero.mp (Nat.le_zero.mp hl)]
    exact ⟨[], by simp [collapseWs, he]⟩
  | succ n ih =>
    intro l hl e he
    cases l with
    | nil => exact ⟨[], by simp [collapseWs, he]⟩
    | cons a as =>
      have has : as.length ≤ n := by simp only [List.length_cons] at hl; omega
      rcases ha : isWS a with _ | _
      · obtain ⟨P, hP⟩ := ih as has e he
        exact ⟨a :: P, by rw [List.cons_append, collapseWs_cons_neg a ha, hP]; rfl⟩
      · have hstep : (as ++ [e]).dropWhile isWS = as.dropWhile isWS ++ [e] :=
          dropWhile_ws_append_headnw as [e] (by
            intro d hd
            simp only [List.head?_cons, Option.some.injEq] at hd
            rw [← hd]
            exact he)
        obtain ⟨P, hP⟩ := ih (as.dropWhile isWS)
          (le_trans (lengthDropWhileLe _ _) has) e he
        exact ⟨' ' :: P, by
          rw [List.cons_append, collapseWs_cons_ws a ha, hstep, hP]; rfl⟩

/-- Well-spaced strings: every whitespace character is a plain space and
no two whitespace characters are adjacent (the normal form produced by
`collapseWs`). -/
def WellSpaced : List Char → Prop
  | [] => True
  | [c] => isWS c = true → c = ' '
  | c :: d :: t => (isWS c = true → (c = ' ' ∧ isWS d = false)) ∧ WellSpaced (d :: t)

theorem wellSpaced_tail (c : Char) (cs : List Char)
    (h : WellSpaced (c :: cs)) : WellSpaced cs := by
  cases cs with
  | nil => trivial
  | cons d t => exact h.2

theorem wellSpaced_cons_nonws (c : Char) (hc : isWS c = false) (R : List Char)
    (hR : WellSpaced R) : WellSpaced (c :: R) := by
  cases R with
  | nil =>
    intro hx
    rw [hc] at hx
    exact Bool.noConfusion hx
  | cons d t => exact ⟨fun hx => absurd hx (by simp [hc]), hR⟩

theorem wellSpaced_cons_space (R : List Char) (hR : WellSpaced R)
    (hhead : ∀ d, R.head? = some d → isWS d = false) :
    WellSpaced (' ' :: R) := by
  cases R with
  | nil => intro _; rfl
  | cons d t => exact ⟨fun _ => ⟨rfl, hhead d rfl⟩, hR⟩

theorem wellSpaced_append_right (M B : List Char) (h : WellSpaced (M ++ B)) :
    WellSpaced M := by
  induction M with
  | nil => trivial
  | cons c cs ih =>
    cases cs with
    | nil =>
      cases B with
      | nil => exact h
      | cons b bs =>
        intro hx
        exact (h.1 hx).1
    | cons d ds => exact ⟨h.1, ih h.2⟩

theorem wellSpaced_append_left (A M : List Char) (h : WellSpaced (A ++ M)) :
    WellSpaced M := by
  induction A with
  | nil => exact h
  | cons a as ih => exact ih (wellSpaced_tail _ _ h)

theorem wellSpaced_infix (A M B : List Char) (h : WellSpaced (A ++ M ++ B)) :
    WellSpaced M :=
  wellSpaced_append_right M B (wellSpaced_append_left A (M ++ B)
    (by rwa [← List.append_assoc]))

theorem wellSpaced_trimL (l : List Char) (h : WellSpaced l) :
    WellSpaced (trimL l) := by
  obtain ⟨A, B, hd, _, _⟩ := trimL_decomp l
  exact wellSpaced_infix A (trimL l) B (by rwa [← hd])

/-- The output of `collapseWs` is well-spaced. -/
theorem wellSpaced_collapseWs : ∀ n (l : List Char), l.length ≤ n →
    WellSpaced (collapseWs l) := by
  intro n
  induction n with
  | zero =>
    intro l hl
    rw [List.length_eq_zero.mp (Nat.le_zero.mp hl)]
    trivial
  | succ n ih =>
    intro l hl
    cases l with
    | nil => trivial
    | cons c cs =>
      have hcs : cs.length ≤ n := by simp only [List.length_cons] at hl; omega
      rcases hc : isWS c with _ | _
      · rw [collapseWs_cons_neg c hc]
        exact wellSpaced_cons_nonws c hc _ (ih cs hcs)
      · rw [collapseWs_cons_ws c hc]
        refine wellSpaced_cons_space _
          (ih _ (le_trans (lengthDropWhileLe _ _) hcs)) ?_
        intro d hd
        rcases he : cs.dropWhile isWS with _ | ⟨e, es⟩
        · rw [he, collapseWs_nil] at hd
          simp at hd
        · have hnw := dropWhile_head_not isWS cs e es he
          rw [he, collapseWs_cons_neg e hnw] at hd
          simp only [List.head?_cons, Option.some.injEq] at hd
          rw [← hd]
          exact hnw

/-- `collapseWs` is the identity on well-spaced strings. -/
theorem collapseWs_wellSpaced_id (l : List Char) (h : WellSpaced l) :
    collapseWs l = l := by
  induction l with
  | nil => rfl
  | cons c cs ih =>
    rcases hc : isWS c with _ | _
    · rw [collapseWs_cons_neg c hc, ih (wellSpaced_tail _ _ h)]
    · cases cs with
      | nil =>
        have hcsp : c = ' ' := h hc
        rw [collapseWs_cons_ws c hc, hcsp]
        rfl
      | cons d t =>
        have h1 := h.1 hc
        rw [collapseWs_cons_ws c hc, List.dropWhile_cons_of_neg (by simp [h1.2]),
          ih h.2, h1.1]

theorem sspAux_nil (acc : List Char) : sspAux acc [] = acc.reverse := rfl

theorem sspAux_cons_ws (acc : List Char) (c : Char) (hc : isWS c = true)
    (cs : List Char) : sspAux acc (c :: cs) = sspAux (c :: acc) cs := by
  simp [sspAux, hc]

theorem sspAux_cons_punct (acc : List Char) (c : Char) (hws : isWS c = false)
    (hp : isPunctCh c = true) (cs : List Char) :
    sspAux acc (c :: cs) = c :: sspAux [] cs := by
  simp [sspAux, hws, hp]

theorem sspAux_cons_other (acc : List Char) (c : Char) (hws : isWS c = false)
    (hp : isPunctCh c = false) (cs : List Char) :
    sspAux acc (c :: cs) = acc.reverse ++ c :: sspAux [] cs := by
  simp [sspAux, hws, hp]

/-- `stripWsPunct` copies a non-whitespace head. -/
theorem stripWsPunct_cons_neg (c : Char) (hws : isWS c = false)
    (cs : List Char) : stripWsPunct (c :: cs) = c :: stripWsPunct cs := by
  unfold stripWsPunct
  rcases hp : isPunctCh c with _ | _
  · rw [sspAux_cons_other [] c hws hp]
    rfl
  · rw [sspAux_cons_punct [] c hws hp]

/-- A whitespace run moves into the pending accumulator. -/
theorem sspAux_ws_run : ∀ (run : List Char), (∀ c ∈ run, isWS c = true) →
    ∀ acc rest, sspAux acc (run ++ rest) = sspAux (run.reverse ++ acc) rest := by
  intro run
  induction run with
  | nil => intro _ acc rest; rfl
  | cons r rs ih =>
    intro h acc rest
    rw [List.cons_append, sspAux_cons_ws acc r (h r (List.mem_cons_self _ _)),
      ih (fun c hc => h c (List.mem_cons_of_mem _ hc)) (r :: acc) rest]
    congr 1
    simp

/-- `sspAux` flushes the accumulator before an all-whitespace input. -/
theorem sspAux_all_ws (l : List Char) (h : ∀ c ∈ l, isWS c = true)
    (acc : List Char) : sspAux acc l = acc.reverse ++ l := by
  have h2 := sspAux_ws_run l h acc []
  rw [List.append_nil] at h2
  rw [h2, sspAux_nil, List.reverse_append, List.reverse_reverse]

/-- `stripWsPunct` keeps an all-whitespace string. -/
theorem stripWsPunct_all_ws (l : List Char) (h : ∀ c ∈ l, isWS c = true) :
    stripWsPunct l = l := by
  unfold stripWsPunct
  rw [sspAux_all_ws l h []]
  rfl

/-- `sspAux` splits at a non-whitespace last character of the first
list. -/
theorem sspAux_append_lastnw : ∀ (xs : List Char), xs ≠ [] →
    (∀ d, xs.getLast? = some d → isWS d = false) →
    ∀ acc ys, sspAux acc (xs ++ ys) = sspAux acc xs ++ sspAux [] ys := by
  intro xs
  induction xs with
  | nil => intro h; exact absurd rfl h
  | cons a as ih =>
    intro _ hlast acc ys
    cases as with
    | nil =>
      have ha : isWS a = false := hlast a (List.getLast?_singleton a)
      rcases hp : isPunctCh a with _ | _
      · simp [sspAux, ha, hp]
      · simp [sspAux, ha, hp]
    | cons b bs =>
      have hlastas : ∀ d, (b :: bs).getLast? = some d → isWS d = false := by
        intro d hd
        apply hlast
        rw [List.getLast?_cons_cons]
        exact hd
      have hne2 : (b :: bs) ≠ [] := by simp
      rcases ha : isWS a with _ | _
      · rcases hp : isPunctCh a with _ | _
        · rw [List.cons_append, sspAux_cons_other acc a ha hp ((b :: bs) ++ ys),
            ih hne2 hlastas [] ys, sspAux_cons_other acc a ha hp (b :: bs),
            List.append_assoc]
          rfl
        · rw [List.cons_append, sspAux_cons_punct acc a ha hp ((b :: bs) ++ ys),
            ih hne2 hlastas [] ys, sspAux_cons_punct acc a ha hp (b :: bs)]
          rfl
      · rw [List.cons_append, sspAux_cons_ws acc a ha ((b :: bs) ++ ys),
          ih hne2 hlastas (a :: acc) ys, sspAux_cons_ws acc a ha (b :: bs)]

/-- Left context is absorbed by `sspAux` up to a prefix. -/
theorem sspAux_left_absorb : ∀ (p acc Z : List Char),
    (∀ d, Z.head? = some d → isWS d = false) →
    ∃ A, sspAux acc (p ++ Z) = A ++ sspAux [] Z := by
  intro p
  induction p with
  | nil =>
    intro acc Z hZ
    cases Z with
    | nil => exact ⟨acc.reverse, by simp [sspAux]⟩
    | cons z zs =>
      have hz : isWS z = false := hZ z rfl
      rcases hp : isPunctCh z with _ | _
      · exact ⟨acc.reverse, by
          rw [List.nil_append, sspAux_cons_other acc z hz hp zs,
            sspAux_cons_other [] z hz hp zs]
          rfl⟩
      · exact ⟨[], by
          rw [List.nil_append, sspAux_cons_punct acc z hz hp zs,
            sspAux_cons_punct [] z hz hp zs]
          rfl⟩
  | cons a as ih =>
    intro acc Z hZ
    rcases ha : isWS a with _ | _
    · rcases hp : isPunctCh a with _ | _
      · obtain ⟨A, hA⟩ := ih [] Z hZ
        exact ⟨acc.reverse ++ a :: A, by
          rw [List.cons_append, sspAux_cons_other acc a ha hp (as ++ Z), hA,
            List.append_assoc]
          rfl⟩
      · obtain ⟨A, hA⟩ := ih [] Z hZ
        exact ⟨a :: A, by
          rw [List.cons_append, sspAux_cons_punct acc a ha hp (as ++ Z), hA]
          rfl⟩
    · obtain ⟨A, hA⟩ := ih (a :: acc) Z hZ
      exact ⟨A, by rw [List.cons_append, sspAux_cons_ws acc a ha (as ++ Z), hA]⟩

/-- `sspAux` preserves a non-whitespace final character. -/
theorem sspAux_concat_nw : ∀ (l acc : List Char) (e : Char), isWS e = false →
    ∃ P, sspAux acc (l ++ [e]) = P ++ [e] := by
  intro l
  induction l with
  | nil =>
    intro acc e he
    rcases hp : isPunctCh e with _ | _
    · exact ⟨acc.reverse, by
        rw [List.nil_append, sspAux_cons_other acc e he hp []]; rfl⟩
    · exact ⟨[], by rw [List.nil_append, sspAux_cons_punct acc e he hp []]; rfl⟩
  | cons a as ih =>
    intro acc e he
    rcases ha : isWS a with _ | _
    · rcases hp : isPunctCh a with _ | _
      · obtain ⟨P, hP⟩ := ih [] e he
        exact ⟨acc.reverse ++ a :: P, by
          rw [List.cons_append, sspAux_cons_other acc a ha hp (as ++ [e]), hP,
            List.append_assoc]
          rfl⟩
      · obtain ⟨P, hP⟩ := ih [] e he
        exact ⟨a :: P, by
          rw [List.cons_append, sspAux_cons_punct acc a ha hp (as ++ [e]), hP]
          rfl⟩
    · obtain ⟨P, hP⟩ := ih (a :: acc) e he
      exact ⟨P, by rw [List.cons_append, sspAux_cons_ws acc a ha (as ++ [e]), hP]⟩

/-- `stripWsPunct` preserves well-spacing. -/
theorem wellSpaced_stripWsPunct : ∀ n (l : List Char), l.length ≤ n →
    WellSpaced l → WellSpaced (stripWsPunct l) := by
  intro n
  induction n with
  | zero =>
    intro l hl _
    rw [List.length_eq_zero.mp (Nat.le_zero.mp hl)]
    trivial
  | succ n ih =>
    intro l hl hws
    cases l with
    | nil => trivial
    | cons c cs =>
      have hcs : cs.length ≤ n := by simp only [List.length_cons] at hl; omega
      rcases hc : isWS c with _ | _
      · rw [stripWsPunct_cons_neg c hc]
        exact wellSpaced_cons_nonws c hc _ (ih cs hcs (wellSpaced_tail _ _ hws))
      · cases cs with
        | nil =>
          rw [stripWsPunct_all_ws [c] (by
            intro x hx
            simp only [List.mem_singleton] at hx
            rw [hx]
            exact hc)]
          exact hws
        | cons d t =>
          have h1 := hws.1 hc
          have hd := h1.2
          have ht : t.length ≤ n := by simp only [List.length_cons] at hl; omega
          have hwt : WellSpaced t :=
            wellSpaced_tail _ _ (wellSpaced_tail _ _ hws)
          rcases hp : isPunctCh d with _ | _
          · have heq : stripWsPunct (c :: d :: t) = c :: d :: stripWsPunct t := by
              unfold stripWsPunct
              rw [sspAux_cons_ws [] c hc (d :: t), sspAux_cons_other [c] d hd hp t]
              rfl
            rw [heq]
            exact ⟨fun _ => ⟨h1.1, hd⟩,
              wellSpaced_cons_nonws d hd _ (ih t ht hwt)⟩
          · have heq : stripWsPunct (c :: d :: t) = d :: stripWsPunct t := by
              unfold stripWsPunct
              rw [sspAux_cons_ws [] c hc (d :: t), sspAux_cons_punct [c] d hd hp t]
            rw [heq]
            exact wellSpaced_cons_nonws d hd _ (ih t ht hwt)

/-- `fixWords` keeps a non-whitespace head non-whitespace. -/
theorem fixWords_head_nw (c : Char) (hc : isWS c = false) (cs : List Char) :
    ∃ d ds, fixWords (c :: cs) = d :: ds ∧ isWS d = false := by
  rcases hw : isWordChar c with _ | _
  · exact ⟨c, fixWords cs, fixWords_cons_neg c hw cs, hc⟩
  · rw [fixWords_cons_word c hw cs]
    have htw : (c :: cs).takeWhile isWordChar = c :: cs.takeWhile isWordChar :=
      List.takeWhile_cons_of_pos hw
    have hnz : (c :: cs).takeWhile isWordChar ≠ [] := by rw [htw]; simp
    have hnws : ∀ x ∈ fixTok ((c :: cs).takeWhile isWordChar), isWS x = false :=
      fixTok_no_ws _ (fun x hx => isWordChar_not_ws x (List.mem_takeWhile_imp hx))
    rcases hf : fixTok ((c :: cs).takeWhile isWordChar) with _ | ⟨d, ds⟩
    · exact absurd hf (fixTok_ne_nil _ hnz)
    · refine ⟨d, ds ++ fixWords ((c :: cs).dropWhile isWordChar), rfl, ?_⟩
      exact hnws d (by rw [hf]; exact List.mem_cons_self _ _)

/-- `fixWordsAux` ends in a non-whitespace character when the input
does. -/
theorem fixWordsAux_concat_nw : ∀ (l acc : List Char),
    (∀ c ∈ acc, isWordChar c = true) → ∀ e, isWS e = false →
    ∃ P d, fixWordsAux acc (l ++ [e]) = P ++ [d] ∧ isWS d = false := by
  intro l
  induction l with
  | nil =>
    intro acc hacc e he
    rcases hw : isWordChar e with _ | _
    · refine ⟨fixTok acc.reverse, e, ?_, he⟩
      rw [List.nil_append]
      simp [fixWordsAux, hw, fixTok_nil]
    · have htok : (e :: acc).reverse ≠ [] := by simp
      have hnws : ∀ x ∈ fixTok (e :: acc).reverse, isWS x = false :=
        fixTok_no_ws _ (by
          intro x hx
          rw [List.mem_reverse] at hx
          rcases List.mem_cons.mp hx with rfl | hx2
          · exact isWordChar_not_ws x hw
          · exact isWordChar_not_ws x (hacc x hx2))
      obtain ⟨P, d, hPd, hdnw⟩ := exists_concat_nw _ (fixTok_ne_nil _ htok) hnws
      refine ⟨P, d, ?_, hdnw⟩
      rw [List.nil_append, show fixWordsAux acc [e] = fixTok (e :: acc).reverse by
        simp [fixWordsAux, hw]]
      exact hPd
  | cons a as ih =>
    intro acc hacc e he
    rcases hw : isWordChar a with _ | _
    · obtain ⟨P, d, hPd, hdnw⟩ := ih [] (by intro c hc; cases hc) e he
      refine ⟨fixTok acc.reverse ++ a :: P, d, ?_, hdnw⟩
      rw [List.cons_append, show fixWordsAux acc (a :: (as ++ [e])) =
        fixTok acc.reverse ++ a :: fixWordsAux [] (as ++ [e]) by
        simp [fixWordsAux, hw], hPd, List.append_assoc]
      rfl
    · obtain ⟨P, d, hPd, hdnw⟩ := ih (a :: acc) (by
        intro c hc
        rcases List.mem_cons.mp hc with rfl | hc2
        · exact hw
        · exact hacc c hc2) e he
      refine ⟨P, d, ?_, hdnw⟩
      rw [List.cons_append, show fixWordsAux acc (a :: (as ++ [e])) =
        fixWordsAux (a :: acc) (as ++ [e]) by simp [fixWordsAux, hw]]
      exact hPd

/-- `fixWords` ends in a non-whitespace character when the input does. -/
theorem fixWords_concat_nw (l : List Char) (e : Char) (he : isWS e = false) :
    ∃ P d, fixWords (l ++ [e]) = P ++ [d] ∧ isWS d = false :=
  fixWordsAux_concat_nw l [] (by intro c hc; cases hc) e he

theorem fixWordsAux_ne_nil : ∀ (l acc : List Char),
    (∀ c ∈ acc, isWordChar c = true) → (acc ≠ [] ∨ l ≠ []) →
    fixWordsAux acc l ≠ [] := by
  intro l
  induction l with
  | nil =>
    intro acc _ hor
    rcases hor with h | h
    · show fixTok acc.reverse ≠ []
      exact fixTok_ne_nil _ (by simpa using h)
    · exact absurd rfl h
  | cons a as ih =>
    intro acc hacc _
    rcases hw : isWordChar a with _ | _
    · rw [show fixWordsAux acc (a :: as) =
        fixTok acc.reverse ++ a :: fixWordsAux [] as by simp [fixWordsAux, hw]]
      simp
    · rw [show fixWordsAux acc (a :: as) = fixWordsAux (a :: acc) as by
        simp [fixWordsAux, hw]]
      exact ih (a :: acc) (by
        intro c hc
        rcases List.mem_cons.mp hc with rfl | hc2
        · exact hw
        · exact hacc c hc2) (Or.inl (by simp))

theorem fixWords_ne_nil (l : List Char) (h : l ≠ []) : fixWords l ≠ [] :=
  fixWordsAux_ne_nil l [] (by intro c hc; cases hc) (Or.inr h)

/-- `fixWords` copies an all-whitespace prefix. -/
theorem fixWords_allws_append (A X : List Char) (hA : ∀ c ∈ A, isWS c = true) :
    fixWords (A ++ X) = A ++ fixWords X := by
  induction A with
  | nil => rfl
  | cons a as ih =>
    rw [List.cons_append,
      fixWords_cons_neg a (isWS_not_word a (hA a (List.mem_cons_self _ _))),
      ih fun c hc => hA c (List.mem_cons_of_mem _ hc), List.cons_append]

/-- `fixWords` keeps an all-whitespace string. -/
theorem fixWords_all_ws (l : List Char) (h : ∀ c ∈ l, isWS c = true) :
    fixWords l = l := by
  have h2 := fixWords_allws_append l [] h
  rw [List.append_nil, fixWords_nil, List.append_nil] at h2
  exact h2

theorem wellSpaced_allnonws_append (X Y : List Char)
    (hX : ∀ c ∈ X, isWS c = false) (hY : WellSpaced Y) :
    WellSpaced (X ++ Y) := by
  induction X with
  | nil => exact hY
  | cons x xs ih =>
    exact wellSpaced_cons_nonws x (hX x (List.mem_cons_self _ _)) _
      (ih fun c hc => hX c (List.mem_cons_of_mem _ hc))

/-- `fixWords` preserves well-spacing. -/
theorem wellSpaced_fixWords : ∀ n (l : List Char), l.length ≤ n →
    WellSpaced l → WellSpaced (fixWords l) := by
  intro n
  induction n with
  | zero =>
    intro l hl _
    rw [List.length_eq_zero.mp (Nat.le_zero.mp hl), fixWords_nil]
    trivial
  | succ n ih =>
    intro l hl hws
    cases l with
    | nil => rw [fixWords_nil]; trivial
    | cons c cs =>
      have hcs : cs.length ≤ n := by simp only [List.length_cons] at hl; omega
      rcases hw : isWordChar c with _ | _
      · rw [fixWords_cons_neg c hw]
        rcases hc : isWS c with _ | _
        · exact wellSpaced_cons_nonws c hc _ (ih cs hcs (wellSpaced_tail _ _ hws))
        · cases cs with
          | nil =>
            rw [fixWords_nil]
            exact hws
          | cons d t =>
            have h1 := hws.1 hc
            obtain ⟨d2, ds2, hfw, hd2⟩ := fixWords_head_nw d h1.2 t
            rw [hfw]
            refine ⟨fun _ => ⟨h1.1, hd2⟩, ?_⟩
            rw [← hfw]
            exact ih (d :: t) hcs (wellSpaced_tail _ _ hws)
      · rw [fixWords_cons_word c hw cs]
        have hnws : ∀ x ∈ fixTok ((c :: cs).takeWhile isWordChar),
            isWS x = false :=
          fixTok_no_ws _ (fun x hx =>
            isWordChar_not_ws x (List.mem_takeWhile_imp hx))
        obtain ⟨pre, hpre⟩ := List.dropWhile_suffix (l := (c :: cs)) isWordChar
        have hwsd : WellSpaced ((c :: cs).dropWhile isWordChar) :=
          wellSpaced_append_left pre _ (by rw [hpre]; exact hws)
        have hlen : ((c :: cs).dropWhile isWordChar).length ≤ n := by
          rw [List.dropWhile_cons_of_pos hw]
          exact le_trans (lengthDropWhileLe _ _) hcs
        exact wellSpaced_allnonws_append _ _ hnws (ih _ hlen hwsd)

/-- `collapseWs` does not disturb a leading maximal word run. -/
theorem word_run_collapseWs : ∀ X : List Char,
    (collapseWs X).takeWhile isWordChar = X.takeWhile isWordChar ∧
    (collapseWs X).dropWhile isWordChar = collapseWs (X.dropWhile isWordChar) := by
  intro X
  induction X with
  | nil => exact ⟨rfl, rfl⟩
  | cons x xs ih =>
    rcases hw : isWordChar x with _ | _
    · rcases hx : isWS x with _ | _
      · rw [collapseWs_cons_neg x hx]
        constructor
        · rw [List.takeWhile_cons_of_neg (by simp [hw]),
            List.takeWhile_cons_of_neg (by simp [hw])]
        · rw [List.dropWhile_cons_of_neg (by simp [hw]),
            List.dropWhile_cons_of_neg (by simp [hw]),
            collapseWs_cons_neg x hx]
      · rw [collapseWs_cons_ws x hx]
        constructor
        · rw [List.takeWhile_cons_of_neg (by decide),
            List.takeWhile_cons_of_neg (by simp [hw])]
        · rw [List.dropWhile_cons_of_neg (by decide),
            List.dropWhile_cons_of_neg (by simp [hw]),
            collapseWs_cons_ws x hx]
    · have hx : isWS x = false := isWordChar_not_ws x hw
      rw [collapseWs_cons_neg x hx]
      constructor
      · rw [List.takeWhile_cons_of_pos hw, List.takeWhile_cons_of_pos hw, ih.1]
      · rw [List.dropWhile_cons_of_pos hw, List.dropWhile_cons_of_pos hw, ih.2]

/-- The word substitutions commute with whitespace collapsing. -/
theorem fixWords_collapseWs_comm : ∀ n (l : List Char), l.length ≤ n →
    fixWords (collapseWs l) = collapseWs (fixWords l) := by
  intro n
  induction n with
  | zero =>
    intro l hl
    rw [List.length_eq_zero.mp (Nat.le_zero.mp hl)]
    rfl
  | succ n ih =>
    intro l hl
    cases l with
    | nil => rfl
    | cons c cs =>
      have hcs : cs.length ≤ n := by simp only [List.length_cons] at hl; omega
      rcases hc : isWS c with _ | _
      · rcases hw : isWordChar c with _ | _
        · rw [collapseWs_cons_neg c hc, fixWords_cons_neg c hw,
            fixWords_cons_neg c hw, collapseWs_cons_neg c hc, ih cs hcs]
        · rw [collapseWs_cons_neg c hc, fixWords_cons_word c hw,
            fixWords_cons_word c hw, List.takeWhile_cons_of_pos hw,
            List.takeWhile_cons_of_pos hw, List.dropWhile_cons_of_pos hw,
            List.dropWhile_cons_of_pos hw, (word_run_collapseWs cs).1,
            (word_run_collapseWs cs).2,
            ih (cs.dropWhile isWordChar) (le_trans (lengthDropWhileLe _ _) hcs)]
          have htoknw : ∀ x ∈ fixTok (c :: cs.takeWhile isWordChar),
              isWS x = false := by
            apply fixTok_no_ws
            intro x hx
            rcases List.mem_cons.mp hx with rfl | hx2
            · exact isWordChar_not_ws x hw
            · exact isWordChar_not_ws x (List.mem_takeWhile_imp hx2)
          have hTlast : ∀ d,
              (fixTok (c :: cs.takeWhile isWordChar)).getLast? = some d →
              isWS d = false := by
            intro d hd
            exact htoknw d (List.mem_of_getLast?_eq_some hd)
          rw [collapseWs_right_split (fixTok (c :: cs.takeWhile isWordChar)).length
            _ le_rfl hTlast (fixWords (cs.dropWhile isWordChar)),
            collapseWs_no_ws _ htoknw]
      · rw [collapseWs_cons_ws c hc, fixWords_cons_neg ' ' (by decide),
          fixWords_cons_neg c (isWS_not_word c hc),
          ih (cs.dropWhile isWS) (le_trans (lengthDropWhileLe _ _) hcs)]
        have hrun : ∀ x ∈ cs.takeWhile isWS, isWS x = true :=
          fun x hx => List.mem_takeWhile_imp hx
        have hfw2 : fixWords cs =
            cs.takeWhile isWS ++ fixWords (cs.dropWhile isWS) := by
          conv_lhs => rw [← List.takeWhile_append_dropWhile isWS cs]
          exact fixWords_allws_append _ _ hrun
        rw [hfw2]
        rcases hR : cs.dropWhile isWS with _ | ⟨d, ds⟩
        · rw [fixWords_nil, collapseWs_nil, List.append_nil,
            collapseWs_all_ws (c :: cs.takeWhile isWS) (by simp)
              (by
                intro x hx
                rcases List.mem_cons.mp hx with rfl | hx2
                · exact hc
                · exact hrun x hx2)]
        · have hd := dropWhile_head_not isWS cs d ds hR
          obtain ⟨d2, ds2, hfwR, hd2⟩ := fixWords_head_nw d hd ds
          rw [hfwR, show c :: (cs.takeWhile isWS ++ d2 :: ds2) =
            (c :: cs.takeWhile isWS) ++ (d2 :: ds2) by rfl,
            collapseWs_allws_emit (c :: cs.takeWhile isWS) (d2 :: ds2)
              (by
                intro x hx
                rcases List.mem_cons.mp hx with rfl | hx2
                · exact hc
                · exact hrun x hx2)
              (by simp)
              (by
                intro dd hdd
                simp only [List.head?_cons, Option.some.injEq] at hdd
                rw [← hdd]
                exact hd2)]

/-- Wrapper for `fixWords_collapseWs_comm`. -/
theorem fixWords_collapseWs (l : List Char) :
    fixWords (collapseWs l) = collapseWs (fixWords l) :=
  fixWords_collapseWs_comm l.length l le_rfl

/-- Merging two leading whitespace characters under `collapseWs`. -/
theorem collapseWs_ws_absorb (c d : Char) (hc : isWS c = true)
    (hd : isWS d = true) (t : List Char) :
    collapseWs (c :: d :: t) = collapseWs (d :: t) := by
  rw [collapseWs_cons_ws c hc, collapseWs_cons_ws d hd,
    List.dropWhile_cons_of_pos hd]

theorem sapAux_nil (b : Bool) : sapAux b [] = [] := by cases b <;> rfl

theorem sapAux_false_cons_nil (c : Char) : sapAux false [c] = [c] := by
  simp [sapAux]

theorem sapAux_true_cons_nil (c : Char) (hc : isWS c = false) :
    sapAux true [c] = [c] := by
  simp [sapAux, hc]

theorem sapAux_true_cons_nil_ws (c : Char) (hc : isWS c = true) :
    sapAux true [c] = [] := by
  simp [sapAux, hc]

theorem sapAux_true_cons_ws (c : Char) (hc : isWS c = true) (cs : List Char) :
    sapAux true (c :: cs) = sapAux true cs := by
  simp [sapAux, hc]

theorem sapAux_false_cons_ws (c : Char) (hc : isWS c = true) (cs : List Char) :
    sapAux false (c :: cs) = c :: sapAux false cs := by
  simp [sapAux, hc, isWS_not_punct c hc]

theorem sapAux_cons_step (b : Bool) (c : Char) (hc : isWS c = false)
    (d : Char) (ds : List Char) (h : (isPunctCh c && isWS d) = false) :
    sapAux b (c :: d :: ds) = c :: sapAux false (d :: ds) := by
  cases b <;> simp [sapAux, hc, h]

theorem sapAux_cons_punct_ws (b : Bool) (c : Char) (hc : isWS c = false)
    (hp : isPunctCh c = true) (d : Char) (hd : isWS d = true) (ds : List Char) :
    sapAux b (c :: d :: ds) = c :: ' ' :: sapAux true (d :: ds) := by
  cases b <;> simp [sapAux, hc, hp, hd]

/-- A non-whitespace head is copied by `sapAux`. -/
theorem sapAux_head (b : Bool) (c : Char) (hc : isWS c = false)
    (cs : List Char) : ∃ Y, sapAux b (c :: cs) = c :: Y := by
  rcases hp : (isPunctCh c && (match cs with | d :: _ => isWS d | [] => false))
    with _ | _
  · exact ⟨sapAux false cs, by cases b <;> simp [sapAux, hc, hp]⟩
  · exact ⟨' ' :: sapAux true cs, by cases b <;> simp [sapAux, hc, hp]⟩

/-- `collapseWs` erases the effect of the punctuation-spacing pass, in
both scan states. -/
theorem collapseWs_sapAux : ∀ n (l : List Char), l.length ≤ n →
    collapseWs (sapAux false l) = collapseWs l ∧
    collapseWs (' ' :: sapAux true l) = collapseWs (' ' :: l) := by
  intro n
  induction n with
  | zero =>
    intro l hl
    rw [List.length_eq_zero.mp (Nat.le_zero.mp hl)]
    exact ⟨rfl, rfl⟩
  | succ n ih =>
    intro l hl
    cases l with
    | nil => exact ⟨rfl, rfl⟩
    | cons c cs =>
      have hcs : cs.length ≤ n := by simp only [List.length_cons] at hl; omega
      obtain ⟨ihP, ihQ⟩ := ih cs hcs
      constructor
      · -- state `false`
        cases cs with
        | nil => rw [sapAux_false_cons_nil]
        | cons d ds =>
          rcases hc2 : isWS c with _ | _
          · rcases hpd : (isPunctCh c && isWS d) with _ | _
            · rw [sapAux_cons_step false c hc2 d ds hpd,
                collapseWs_cons_neg c hc2, collapseWs_cons_neg c hc2, ihP]
            · obtain ⟨hp, hd⟩ : isPunctCh c = true ∧ isWS d = true := by
                simpa using hpd
              rw [sapAux_cons_punct_ws false c hc2 hp d hd ds,
                collapseWs_cons_neg c hc2, ihQ,
                collapseWs_ws_absorb ' ' d (by decide) hd ds,
                collapseWs_cons_neg c hc2]
          · rcases hd : isWS d with _ | _
            · obtain ⟨Y, hY⟩ := sapAux_head false d hd ds
              rw [sapAux_false_cons_ws c hc2 (d :: ds),
                collapseWs_ws_emit c hc2 (sapAux false (d :: ds)) (by
                  intro x hx
                  rw [hY] at hx
                  simp only [List.head?_cons, Option.some.injEq] at hx
                  rw [← hx]
                  exact hd),
                ihP,
                collapseWs_ws_emit c hc2 (d :: ds) (by
                  intro x hx
                  simp only [List.head?_cons, Option.some.injEq] at hx
                  rw [← hx]
                  exact hd)]
            · rw [sapAux_false_cons_ws c hc2 (d :: ds),
                sapAux_false_cons_ws d hd ds,
                collapseWs_ws_absorb c d hc2 hd _,
                ← sapAux_false_cons_ws d hd ds, ihP,
                collapseWs_ws_absorb c d hc2 hd ds]
      · -- state `true`, behind an emitted space
        rcases hc2 : isWS c with _ | _
        · -- non-whitespace head
          cases cs with
          | nil =>
            rw [sapAux_true_cons_nil c hc2]
          | cons d ds =>
            rcases hpd : (isPunctCh c && isWS d) with _ | _
            · rw [sapAux_cons_step true c hc2 d ds hpd,
                collapseWs_ws_emit ' ' (by decide)
                  (c :: sapAux false (d :: ds)) (by
                    intro x hx
                    simp only [List.head?_cons, Option.some.injEq] at hx
                    rw [← hx]
                    exact hc2),
                collapseWs_ws_emit ' ' (by decide) (c :: d :: ds) (by
                  intro x hx
                  simp only [List.head?_cons, Option.some.injEq] at hx
                  rw [← hx]
                  exact hc2),
                collapseWs_cons_neg c hc2, collapseWs_cons_neg c hc2, ihP]
            · obtain ⟨hp, hd⟩ : isPunctCh c = true ∧ isWS d = true := by
                simpa using hpd
              rw [sapAux_cons_punct_ws true c hc2 hp d hd ds,
                collapseWs_ws_emit ' ' (by decide)
                  (c :: ' ' :: sapAux true (d :: ds)) (by
                    intro x hx
                    simp only [List.head?_cons, Option.some.injEq] at hx
                    rw [← hx]
                    exact hc2),
                collapseWs_cons_neg c hc2, ihQ,
                collapseWs_ws_absorb ' ' d (by decide) hd ds,
                collapseWs_ws_emit ' ' (by decide) (c :: d :: ds) (by
                  intro x hx
                  simp only [List.head?_cons, Option.some.injEq] at hx
                  rw [← hx]
                  exact hc2),
                collapseWs_cons_neg c hc2]
        · -- whitespace head is dropped by the `true` state
          rw [sapAux_true_cons_ws c hc2 cs, ihQ,
            collapseWs_ws_absorb ' ' c (by decide) hc2 cs,
            collapseWs_cons_ws ' ' (by decide) cs, collapseWs_cons_ws c hc2 cs]

/-- The punctuation-spacing pass is invisible to `collapseWs`. -/
theorem collapseWs_spaceAfterPunct (l : List Char) :
    collapseWs (spaceAfterPunct l) = collapseWs l :=
  (collapseWs_sapAux l.length l le_rfl).1

/-- `applySpellCorrection` with the punctuation-spacing pass cancelled
against the whitespace collapse. -/
theorem ascL_no_nsa (l : List Char) :
    ascL l = trimL (collapseWs (stripWsPunct (fixWords l))) := by
  unfold ascL
  rw [collapseWs_spaceAfterPunct]

/-- The punctuation-gap deletion commutes with whitespace collapsing. -/
theorem stripWsPunct_collapseWs_comm : ∀ n (l : List Char), l.length ≤ n →
    stripWsPunct (collapseWs l) = collapseWs (stripWsPunct l) := by
  intro n
  induction n with
  | zero =>
    intro l hl
    rw [List.length_eq_zero.mp (Nat.le_zero.mp hl)]
    rfl
  | succ n ih =>
    intro l hl
    cases l with
    | nil => rfl
    | cons c cs =>
      have hcs : cs.length ≤ n := by simp only [List.length_cons] at hl; omega
      rcases hc : isWS c with _ | _
      · rw [collapseWs_cons_neg c hc, stripWsPunct_cons_neg c hc,
          stripWsPunct_cons_neg c hc, collapseWs_cons_neg c hc, ih cs hcs]
      · rw [collapseWs_cons_ws c hc]
        rcases hR : cs.dropWhile isWS with _ | ⟨d, ds⟩
        · have hall : ∀ x ∈ c :: cs, isWS x = true := by
            intro x hx
            rcases List.mem_cons.mp hx with rfl | hx2
            · exact hc
            · exact List.dropWhile_eq_nil_iff.mp hR x hx2
          rw [collapseWs_nil, stripWsPunct_all_ws (c :: cs) hall,
            stripWsPunct_all_ws [' '] (by
              intro x hx
              simp only [List.mem_singleton] at hx
              rw [hx]
              decide),
            collapseWs_all_ws (c :: cs) (by simp) hall]
        · have hd := dropWhile_head_not isWS cs d ds hR
          have hlen : ds.length ≤ n := by
            have h5 := lengthDropWhileLe isWS cs
            rw [hR] at h5
            simp only [List.length_cons] at h5
            omega
          have hsplit : c :: cs = (c :: cs.takeWhile isWS) ++ (d :: ds) := by
            rw [List.cons_append]
            congr 1
            rw [← hR, List.takeWhile_append_dropWhile]
          have hrunall : ∀ x ∈ c :: cs.takeWhile isWS, isWS x = true := by
            intro x hx
            rcases List.mem_cons.mp hx with rfl | hx2
            · exact hc
            · exact List.mem_takeWhile_imp hx2
          have hRHS : stripWsPunct (c :: cs) =
              sspAux ((c :: cs.takeWhile isWS).reverse) (d :: ds) := by
            unfold stripWsPunct
            conv_lhs => rw [hsplit]
            rw [sspAux_ws_run (c :: cs.takeWhile isWS) hrunall [] (d :: ds),
              List.append_nil]
          rcases hp : isPunctCh d with _ | _
          · rw [collapseWs_cons_neg d hd]
            have hL : stripWsPunct (' ' :: d :: collapseWs ds) =
                ' ' :: d :: stripWsPunct (collapseWs ds) := by
              unfold stripWsPunct
              rw [sspAux_cons_ws [] ' ' (by decide) (d :: collapseWs ds),
                sspAux_cons_other [' '] d hd hp (collapseWs ds)]
              rfl
            rw [hL, ih ds hlen, hRHS,
              sspAux_cons_other ((c :: cs.takeWhile isWS).reverse) d hd hp ds,
              List.reverse_reverse,
              show sspAux [] ds = stripWsPunct ds from rfl,
              collapseWs_allws_emit (c :: cs.takeWhile isWS)
                (d :: stripWsPunct ds) hrunall (by simp) (by
                  intro x hx
                  simp only [List.head?_cons, Option.some.injEq] at hx
                  rw [← hx]
                  exact hd),
              collapseWs_cons_neg d hd]
          · rw [collapseWs_cons_neg d hd]
            have hL : stripWsPunct (' ' :: d :: collapseWs ds) =
                d :: stripWsPunct (collapseWs ds) := by
              unfold stripWsPunct
              rw [sspAux_cons_ws [] ' ' (by decide) (d :: collapseWs ds),
                sspAux_cons_punct [' '] d hd hp (collapseWs ds)]
            rw [hL, ih ds hlen, hRHS,
              sspAux_cons_punct ((c :: cs.takeWhile isWS).reverse) d hd hp ds,
              show sspAux [] ds = stripWsPunct ds from rfl,
              collapseWs_cons_neg d hd]

/-- Wrapper for `stripWsPunct_collapseWs_comm`. -/
theorem stripWsPunct_collapseWs (l : List Char) :
    stripWsPunct (collapseWs l) = collapseWs (stripWsPunct l) :=
  stripWsPunct_collapseWs_comm l.length l le_rfl

/-- The flush step of the scanner produces exactly the trimmed
accumulator (or nothing). -/
theorem scanSentences_nil_mem (acc s : List Char)
    (hs : s ∈ scanSentences acc []) : s = trimL acc := by
  by_cases hacc : trimL acc = []
  · rw [show scanSentences acc [] = [] by simp [scanSentences, hacc]] at hs
    cases hs
  · rw [show scanSentences acc [] = [trimL acc] by
      simp [scanSentences, hacc]] at hs
    simpa using hs

/-- Every sentence produced by the scanner is the trim of a contiguous
slice of the input whose left context ends in a terminal mark (if any)
and whose right context starts with whitespace (if any). -/
theorem scanSentences_slice : ∀ n (t : List Char), t.length ≤ n → ∀ acc,
    ∀ s ∈ scanSentences acc t,
    ∃ pre u post, acc ++ t = pre ++ u ++ post ∧ s = trimL u ∧
      (pre = [] ∨ ∃ p2 dc, pre = p2 ++ [dc] ∧ isTerminal dc = true) ∧
      (post = [] ∨ ∃ e p3, post = e :: p3 ∧ isWS e = true) := by
  intro n
  induction n with
  | zero =>
    intro t ht acc s hs
    have ht0 := List.length_eq_zero.mp (Nat.le_zero.mp ht)
    subst ht0
    exact ⟨[], acc, [], by simp, scanSentences_nil_mem acc s hs,
      Or.inl rfl, Or.inl rfl⟩
  | succ n ih =>
    intro t ht acc s hs
    cases t with
    | nil =>
      exact ⟨[], acc, [], by simp, scanSentences_nil_mem acc s hs,
        Or.inl rfl, Or.inl rfl⟩
    | cons c t2 =>
      have ht2 : t2.length ≤ n := by simp only [List.length_cons] at ht; omega
      cases t2 with
      | nil =>
        rw [show scanSentences acc [c] = scanSentences (acc ++ [c]) [] from
          rfl] at hs
        exact ⟨[], acc ++ [c], [], by simp,
          scanSentences_nil_mem _ _ hs, Or.inl rfl, Or.inl rfl⟩
      | cons nx rest =>
        by_cases hterm : isTerminal c = true
        · by_cases habbr : (isAbbrevWord (lastToken (acc ++ [c])) ||
              nx = '.' || isLowerAZ nx) = true
          · rw [show scanSentences acc (c :: nx :: rest) =
              scanSentences (acc ++ [c]) (nx :: rest) by
              simp [scanSentences, hterm, habbr]] at hs
            obtain ⟨pre, u, post, heq, hsu, hL, hR⟩ :=
              ih (nx :: rest) ht2 (acc ++ [c]) s hs
            refine ⟨pre, u, post, ?_, hsu, hL, hR⟩
            rw [show acc ++ c :: nx :: rest = (acc ++ [c]) ++ (nx :: rest) by
              simp, heq]
          · by_cases hwsnx : isWS nx = true
            · rw [show scanSentences acc (c :: nx :: rest) =
                trimL (acc ++ [c]) :: scanSentences [] (nx :: rest) by
                simp [scanSentences, hterm, habbr, hwsnx]] at hs
              rcases List.mem_cons.mp hs with rfl | hs2
              · exact ⟨[], acc ++ [c], nx :: rest, by simp, rfl, Or.inl rfl,
                  Or.inr ⟨nx, rest, rfl, hwsnx⟩⟩
              · obtain ⟨pre, u, post, heq, hsu, hL, hR⟩ :=
                  ih (nx :: rest) ht2 [] s hs2
                rw [List.nil_append] at heq
                refine ⟨(acc ++ [c]) ++ pre, u, post, ?_, hsu, ?_, hR⟩
                · rw [show acc ++ c :: nx :: rest =
                    (acc ++ [c]) ++ (nx :: rest) by simp, heq]
                  simp [List.append_assoc]
                · rcases hL with rfl | ⟨p2, dc, hpre, hdc⟩
                  · exact Or.inr ⟨acc, c, by simp, hterm⟩
                  · exact Or.inr ⟨(acc ++ [c]) ++ p2, dc,
                      by rw [hpre]; simp, hdc⟩
            · rw [show scanSentences acc (c :: nx :: rest) =
                scanSentences (acc ++ [c]) (nx :: rest) by
                simp [scanSentences, hterm, habbr, hwsnx]] at hs
              obtain ⟨pre, u, post, heq, hsu, hL, hR⟩ :=
                ih (nx :: rest) ht2 (acc ++ [c]) s hs
              refine ⟨pre, u, post, ?_, hsu, hL, hR⟩
              rw [show acc ++ c :: nx :: rest = (acc ++ [c]) ++ (nx :: rest) by
                simp, heq]
        · rw [show scanSentences acc (c :: nx :: rest) =
            scanSentences (acc ++ [c]) (nx :: rest) by
            simp [scanSentences, hterm]] at hs
          obtain ⟨pre, u, post, heq, hsu, hL, hR⟩ :=
            ih (nx :: rest) ht2 (acc ++ [c]) s hs
          refine ⟨pre, u, post, ?_, hsu, hL, hR⟩
          rw [show acc ++ c :: nx :: rest = (acc ++ [c]) ++ (nx :: rest) by
            simp, heq]

/-- The corrected form of a sentence with non-whitespace ends occurs as a
segment of the corrected form of its context, when the left context ends
in a non-word character and the right context starts with whitespace. -/
theorem aligned_subSeg (pre s post : List Char)
    (hL : pre = [] ∨ ∃ p2 dc, pre = p2 ++ [dc] ∧ isWordChar dc = false)
    (hR : post = [] ∨ ∃ e p3, post = e :: p3 ∧ isWS e = true)
    (hs : s ≠ [])
    (hh : ∀ d, s.head? = some d → isWS d = false)
    (hl : ∀ d, s.getLast? = some d → isWS d = false) :
    SubSeg (trimL (collapseWs (stripWsPunct (fixWords s))))
      (trimL (collapseWs (stripWsPunct (fixWords (pre ++ s ++ post))))) := by
  obtain ⟨c0, s1, hcons⟩ : ∃ c0 s1, s = c0 :: s1 := by
    cases s with
    | nil => exact absurd rfl hs
    | cons a b => exact ⟨a, b, rfl⟩
  have hc0 : isWS c0 = false := hh c0 (by rw [hcons]; rfl)
  obtain ⟨s2, e0, hconcat⟩ : ∃ s2 e0, s = s2 ++ [e0] :=
    ⟨s.dropLast, s.getLast hs, (List.dropLast_append_getLast hs).symm⟩
  have he0 : isWS e0 = false :=
    hl e0 (by rw [hconcat]; exact List.getLast?_concat s2)
  obtain ⟨dY, tY, hYhead, hdY⟩ :
      ∃ d ds, fixWords s = d :: ds ∧ isWS d = false := by
    rw [hcons]
    exact fixWords_head_nw c0 hc0 s1
  obtain ⟨PY, eY, hYlast, heY⟩ :
      ∃ P d, fixWords s = P ++ [d] ∧ isWS d = false := by
    rw [hconcat]
    exact fixWords_concat_nw s2 e0 he0
  have hYne : fixWords s ≠ [] := fixWords_ne_nil s hs
  have hYlastq : ∀ d, (fixWords s).getLast? = some d → isWS d = false := by
    intro d hd
    rw [hYlast, List.getLast?_concat] at hd
    simp only [Option.some.injEq] at hd
    rw [← hd]
    exact heY
  have hFW : ∃ A1 B1, fixWords (pre ++ s ++ post) =
      A1 ++ fixWords s ++ B1 := by
    rcases hR with rfl | ⟨e, p3, rfl, hews⟩
    · rcases hL with rfl | ⟨p2, dc, rfl, hdc⟩
      · exact ⟨[], [], by simp⟩
      · refine ⟨fixWords p2 ++ [dc], [], ?_⟩
        rw [List.append_nil, List.append_nil,
          show (p2 ++ [dc]) ++ s = p2 ++ dc :: s by simp,
          fixWords_append_sep dc hdc p2 s]
        simp
    · have hew : isWordChar e = false := isWS_not_word e hews
      rcases hL with rfl | ⟨p2, dc, rfl, hdc⟩
      · refine ⟨[], e :: fixWords p3, ?_⟩
        rw [List.nil_append, List.nil_append, fixWords_append_sep e hew s p3]
      · refine ⟨fixWords p2 ++ [dc], e :: fixWords p3, ?_⟩
        rw [show (p2 ++ [dc]) ++ s ++ e :: p3 = p2 ++ dc :: (s ++ e :: p3) by
          simp, fixWords_append_sep dc hdc p2 (s ++ e :: p3),
          fixWords_append_sep e hew s p3]
        simp
  obtain ⟨A1, B1, hFW⟩ := hFW
  have hSSB : ∃ A2, stripWsPunct (fixWords (pre ++ s ++ post)) =
      (A2 ++ stripWsPunct (fixWords s)) ++ stripWsPunct B1 := by
    have h1 : ∀ d, (fixWords s ++ B1).head? = some d → isWS d = false := by
      intro d hd
      rw [hYhead, List.cons_append] at hd
      simp only [List.head?_cons, Option.some.injEq] at hd
      rw [← hd]
      exact hdY
    obtain ⟨A2, hA2⟩ := sspAux_left_absorb A1 [] (fixWords s ++ B1) h1
    refine ⟨A2, ?_⟩
    rw [hFW, List.append_assoc]
    unfold stripWsPunct
    rw [hA2, sspAux_append_lastnw (fixWords s) hYne hYlastq [] B1,
      ← List.append_assoc]
  obtain ⟨A2, hSSB⟩ := hSSB
  have hY2h : stripWsPunct (fixWords s) = dY :: stripWsPunct tY := by
    rw [hYhead]
    exact stripWsPunct_cons_neg dY hdY tY
  obtain ⟨P2, hY2last⟩ : ∃ P2, stripWsPunct (fixWords s) = P2 ++ [eY] := by
    rw [hYlast]
    exact sspAux_concat_nw PY [] eY heY
  have hY2lastq : ∀ d, (stripWsPunct (fixWords s)).getLast? = some d →
      isWS d = false := by
    intro d hd
    rw [hY2last, List.getLast?_concat] at hd
    simp only [Option.some.injEq] at hd
    rw [← hd]
    exact heY
  have hCWS : ∃ A3, collapseWs (stripWsPunct (fixWords (pre ++ s ++ post))) =
      (A3 ++ collapseWs (stripWsPunct (fixWords s))) ++
        collapseWs (stripWsPunct B1) := by
    obtain ⟨A3, hA3⟩ := collapseWs_left_absorb A2.length A2 le_rfl
      (stripWsPunct (fixWords s) ++ stripWsPunct B1) (by
        intro d hd
        rw [hY2h, List.cons_append] at hd
        simp only [List.head?_cons, Option.some.injEq] at hd
        rw [← hd]
        exact hdY)
    refine ⟨A3, ?_⟩
    rw [hSSB, List.append_assoc, hA3,
      collapseWs_right_split (stripWsPunct (fixWords s)).length _ le_rfl
        hY2lastq (stripWsPunct B1), ← List.append_assoc]
  obtain ⟨A3, hCWS⟩ := hCWS
  have hZh : collapseWs (stripWsPunct (fixWords s)) =
      dY :: collapseWs (stripWsPunct tY) := by
    rw [hY2h]
    exact collapseWs_cons_neg dY hdY _
  obtain ⟨P3, hZlast⟩ : ∃ P3, collapseWs (stripWsPunct (fixWords s)) =
      P3 ++ [eY] := by
    rw [hY2last]
    exact collapseWs_concat_nw P2.length P2 le_rfl eY heY
  have hZheadq : ∀ d, (collapseWs (stripWsPunct (fixWords s))).head? = some d →
      isWS d = false := by
    intro d hd
    rw [hZh] at hd
    simp only [List.head?_cons, Option.some.injEq] at hd
    rw [← hd]
    exact hdY
  have hZlastq : ∀ d,
      (collapseWs (stripWsPunct (fixWords s))).getLast? = some d →
      isWS d = false := by
    intro d hd
    rw [hZlast, List.getLast?_concat] at hd
    simp only [Option.some.injEq] at hd
    rw [← hd]
    exact heY
  rw [trimL_edges_id _ hZheadq hZlastq, hCWS]
  exact subSeg_trimL A3 _ _ hZheadq hZlastq

/-- The whitespace pads trimmed off the input are invisible to the
substitution and punctuation passes, up to the final trim. -/
theorem trim_strip_fix_pads (G : List Char) (hDne : trimL G ≠ []) :
    trimL (stripWsPunct (fixWords (trimL G))) =
      trimL (stripWsPunct (fixWords G)) := by
  obtain ⟨w1, w2, hG, hw1, hw2⟩ := trimL_decomp G
  obtain ⟨d0, D1, hDcons⟩ : ∃ d0 D1, trimL G = d0 :: D1 := by
    rcases hDc : trimL G with _ | ⟨a, b⟩
    · exact absurd hDc hDne
    · exact ⟨a, b, rfl⟩
  have hd0 : isWS d0 = false := trimL_head_nw G d0 D1 hDcons
  obtain ⟨D2, e0, hDcat, he0⟩ :
      ∃ D2 e0, trimL G = D2 ++ [e0] ∧ isWS e0 = false := by
    obtain ⟨D2, e0, hcat⟩ : ∃ D2 e0, trimL G = D2 ++ [e0] :=
      ⟨(trimL G).dropLast, (trimL G).getLast hDne,
        (List.dropLast_append_getLast hDne).symm⟩
    exact ⟨D2, e0, hcat,
      trimL_last_nw G e0 (by rw [hcat]; exact List.getLast?_concat D2)⟩
  have hFWG : fixWords G = w1 ++ (fixWords (trimL G) ++ w2) := by
    conv_lhs => rw [hG, List.append_assoc]
    rw [fixWords_allws_append w1 _ hw1]
    congr 1
    cases w2 with
    | nil => rw [List.append_nil, List.append_nil]
    | cons e p3 =>
      have hew : isWordChar e = false :=
        isWS_not_word e (hw2 e (List.mem_cons_self _ _))
      rw [fixWords_append_sep e hew (trimL G) p3,
        fixWords_all_ws p3 (fun x hx => hw2 x (List.mem_cons_of_mem _ hx))]
  obtain ⟨dY, tY, hYh, hdY⟩ :
      ∃ d ds, fixWords (trimL G) = d :: ds ∧ isWS d = false := by
    rw [hDcons]
    exact fixWords_head_nw d0 hd0 D1
  obtain ⟨PY, eY, hYl, heY⟩ :
      ∃ P d, fixWords (trimL G) = P ++ [d] ∧ isWS d = false := by
    rw [hDcat]
    exact fixWords_concat_nw D2 e0 he0
  have hYne : fixWords (trimL G) ≠ [] := by rw [hYh]; simp
  have hYlastq : ∀ d, (fixWords (trimL G)).getLast? = some d →
      isWS d = false := by
    intro d hd
    rw [hYl, List.getLast?_concat] at hd
    simp only [Option.some.injEq] at hd
    rw [← hd]
    exact heY
  have hSSBG : ∃ A, (∀ c ∈ A, isWS c = true) ∧
      stripWsPunct (fixWords G) =
        A ++ (stripWsPunct (fixWords (trimL G)) ++ w2) := by
    have hshape : fixWords (trimL G) ++ w2 = dY :: (tY ++ w2) := by
      rw [hYh]
      rfl
    have hsplit2 : sspAux [] (fixWords (trimL G) ++ w2) =
        sspAux [] (fixWords (trimL G)) ++ w2 := by
      rw [sspAux_append_lastnw (fixWords (trimL G)) hYne hYlastq [] w2,
        sspAux_all_ws w2 hw2 []]
      rfl
    rw [hFWG]
    unfold stripWsPunct
    rw [sspAux_ws_run w1 hw1 [] (fixWords (trimL G) ++ w2), List.append_nil]
    rcases hp : isPunctCh dY with _ | _
    · refine ⟨w1, hw1, ?_⟩
      have h6 : sspAux [] (dY :: (tY ++ w2)) = dY :: sspAux [] (tY ++ w2) := by
        rw [sspAux_cons_other [] dY hdY hp (tY ++ w2)]
        rfl
      rw [hshape, sspAux_cons_other w1.reverse dY hdY hp (tY ++ w2),
        List.reverse_reverse, ← h6, ← hshape, hsplit2]
    · refine ⟨[], ?_, ?_⟩
      · intro x hx
        cases hx
      · rw [hshape, sspAux_cons_punct w1.reverse dY hdY hp (tY ++ w2),
          ← sspAux_cons_punct [] dY hdY hp (tY ++ w2), ← hshape, hsplit2]
        rfl
  obtain ⟨A, hAws, hSSBG⟩ := hSSBG
  rw [hSSBG, ← List.append_assoc, trimL_append_pads A _ w2 hAws hw2]

/-- `collapseWs` is the identity on the strip/substitute image of a
well-spaced string. -/
theorem collapse_id_on_pipeline (X : List Char) (hWS : WellSpaced X) :
    collapseWs (stripWsPunct (fixWords X)) = stripWsPunct (fixWords X) :=
  collapseWs_wellSpaced_id _
    (wellSpaced_stripWsPunct (fixWords X).length _ le_rfl
      (wellSpaced_fixWords X.length X le_rfl hWS))

/-- Correcting the whitespace-normalised content gives the same string as
correcting the raw content. -/
theorem cleaned_corrected_eq (content : List Char)
    (hD : trimL (collapseWs content) ≠ []) :
    trimL (collapseWs (stripWsPunct (fixWords (trimL (collapseWs content))))) =
      trimL (collapseWs (stripWsPunct (fixWords content))) := by
  have hWSD : WellSpaced (trimL (collapseWs content)) :=
    wellSpaced_trimL _ (wellSpaced_collapseWs content.length content le_rfl)
  rw [collapse_id_on_pipeline _ hWSD,
    ← stripWsPunct_collapseWs (fixWords content),
    ← fixWords_collapseWs content]
  exact trim_strip_fix_pads (collapseWs content) hD

/-- C1: every quote text returned by `extractQuotes` is a literal
substring, after the orthographic correction `applySpellCorrection`, of
the content of some input passage: the extractor can never fabricate
text that is not present, post-correction, in its input. -/
theorem c1_quotes_verbatim (passages : List StructuredChunk) (query : String)
    (minLength maxQuotes : Nat) (r : QuoteRec)
    (h : r ∈ extractQuotes passages query minLength maxQuotes) :
    ∃ p ∈ passages, SubSeg r.quote (applySpellCorrection p.content).data := by
  obtain ⟨p, hp, sent, hsent, hsf⟩ :=
    extractQuotes_mem passages query minLength maxQuotes r h
  obtain ⟨hq, _⟩ := sentenceFilter_some query.data minLength p sent r hsf
  refine ⟨p, hp, ?_⟩
  rw [hq, show (applySpellCorrection p.content).data = ascL p.content.data
    from rfl]
  obtain ⟨pre, u, post, heq, hsu, hL, hR⟩ :=
    scanSentences_slice (trimL (collapseWs p.content.data)).length _ le_rfl []
      sent hsent
  rw [List.nil_append] at heq
  obtain ⟨A, B, hu, hA, hB⟩ := trimL_decomp u
  rw [← hsu] at hu
  have hcln : trimL (collapseWs p.content.data) =
      ((pre ++ A) ++ sent) ++ (B ++ post) := by
    rw [heq, hu]
    simp [List.append_assoc]
  by_cases hsent0 : sent = []
  · rw [hsent0, show ascL ([] : List Char) = [] from rfl]
    exact ⟨[], ascL p.content.data, by simp⟩
  · have hh : ∀ d, sent.head? = some d → isWS d = false := by
      intro d hd
      rcases hx : sent with _ | ⟨a, b⟩
      · rw [hx] at hd
        cases hd
      · rw [hx] at hd
        simp only [List.head?_cons, Option.some.injEq] at hd
        rw [← hd]
        exact trimL_head_nw u a b (by rw [← hsu]; exact hx)
    have hlq : ∀ d, sent.getLast? = some d → isWS d = false := by
      intro d hd
      apply trimL_last_nw u d
      rw [← hsu]
      exact hd
    have hLq : (pre ++ A) = [] ∨
        ∃ p2 dc, (pre ++ A) = p2 ++ [dc] ∧ isWordChar dc = false := by
      rcases List.eq_nil_or_concat A with rfl | ⟨A2, a2, hA2⟩
      · rcases hL with rfl | ⟨p2, dc, hpre2, hdc⟩
        · exact Or.inl rfl
        · exact Or.inr ⟨p2, dc, by rw [List.append_nil, hpre2],
            isTerminal_not_word dc hdc⟩
      · rw [List.concat_eq_append] at hA2
        refine Or.inr ⟨pre ++ A2, a2, by rw [hA2, ← List.append_assoc], ?_⟩
        exact isWS_not_word a2 (hA a2 (by rw [hA2]; simp))
    have hRq : (B ++ post) = [] ∨
        ∃ e p3, (B ++ post) = e :: p3 ∧ isWS e = true := by
      rcases hBc : B with _ | ⟨b1, B2⟩
      · rw [List.nil_append]
        exact hR
      · exact Or.inr ⟨b1, B2 ++ post, rfl,
          hB b1 (by rw [hBc]; exact List.mem_cons_self _ _)⟩
    have halign :=
      aligned_subSeg (pre ++ A) sent (B ++ post) hLq hRq hsent0 hh hlq
    rw [ascL_no_nsa sent, ascL_no_nsa p.content.data,
      ← cleaned_corrected_eq p.content.data (by
        rw [hcln]
        intro hx
        rcases List.append_eq_nil.mp hx with ⟨hx1, _⟩
        rcases List.append_eq_nil.mp hx1 with ⟨_, hx3⟩
        exact hsent0 hx3),
      hcln]
    exact halign

/-- Witness for `c1_quotes_verbatim` at the sage passage. -/
theorem c1_quotes_verbatim_witness :
    sageQuote ∈ extractQuotes [sagePassage] "" 50 50 ∧
    SubSeg sageQuote.quote (applySpellCorrection sagePassage.content).data := by
  have hmem : sageQuote ∈ extractQuotes [sagePassage] "" 50 50 := by decide
  refine ⟨hmem, ?_⟩
  obtain ⟨p, hp, hsub⟩ :=
    c1_quotes_verbatim [sagePassage] "" 50 50 sageQuote hmem
  have hps := List.mem_singleton.mp hp
  subst hps
  exact hsub
